import Mathlib

/-!
Release build CLI (`release/dist/cli`) and `tailscale update` confirmation.

A shallow embedding of `runBuild`, `runList`, `parseSigningKey`
(`release/dist/cli/cli.go`) and `confirmUpdate` (`cmd/tailscale/cli/update.go`).

Go strings are modelled as `List Char`, one element per byte; the path
functions inspect no byte other than `/` and `.`.  The functions of Go's
`path/filepath` that `runBuild` calls (`Clean`, `Join`, `Dir`, `Rel`, `IsAbs`,
`Abs`) are embedded in their Unix form (separator `/`, empty volume name).
The collaborators that live outside the two files are parameters, and every
function returns, next to its result, the actions it performed in program order.
-/

namespace Dist

deriving instance DecidableEq for Except

/-! ## `path/filepath` on Unix -/

/-- Go `os.IsPathSeparator` on Unix. -/
def IsPathSeparator (c : Char) : Bool := c == '/'

/-- Go `filepath.IsAbs` on Unix: the path starts with a slash. -/
def IsAbs (path : List Char) : Bool :=
  match path with
  | [] => false
  | c :: _ => c == '/'

/-- The inner loop of the `..` case of `Clean`, entered after `out.w--`:
`for out.w > dotdot && !os.IsPathSeparator(out.index(out.w)) { out.w-- }`.
Returns the final `out.w`. -/
def backtrack (buf : List Char) (dotdot : Nat) : Nat → Nat
  | 0 => 0
  | w + 1 =>
    if dotdot < w + 1 ∧ IsPathSeparator (buf.getD (w + 1) '/') = false then
      backtrack buf dotdot w
    else w + 1

/-- The main loop `for r < n` of `Clean`.  `rest` is `path[r:]`, `out` is the
written part of the buffer (`out.w = out.length`); `t = [] ∨ IsAbs t` is the
test `r+1 == n || os.IsPathSeparator(path[r+1])` on the bytes `t` after
`path[r]`.  Every iteration consumes at least one byte, so `rest.length`
iterations are enough. -/
def cleanLoop (rooted : Bool) : Nat → List Char → List Char → Nat → List Char
  | 0, _, out, _ => out
  | fuel + 1, rest, out, dotdot =>
    match rest with
    | [] => out
    | c :: t =>
      if IsPathSeparator c then
        -- empty path element
        cleanLoop rooted fuel t out dotdot
      else if c = '.' ∧ (t = [] ∨ IsAbs t) then
        -- . element
        cleanLoop rooted fuel t out dotdot
      else if c = '.' ∧ t.head? = some '.' ∧ (t.tail = [] ∨ IsAbs t.tail) then
        -- .. element: remove to last separator
        if dotdot < out.length then
          cleanLoop rooted fuel t.tail
            (out.take (backtrack out dotdot (out.length - 1))) dotdot
        else if rooted = false then
          let out1 := if 0 < out.length then out ++ ['/'] else out
          let out2 := out1 ++ ['.', '.']
          cleanLoop rooted fuel t.tail out2 out2.length
        else
          cleanLoop rooted fuel t.tail out dotdot
      else
        -- real path element: add slash if needed, copy element
        let out1 :=
          if (rooted = true ∧ out.length ≠ 1) ∨ (rooted = false ∧ out.length ≠ 0) then
            out ++ ['/']
          else out
        cleanLoop rooted fuel (rest.dropWhile (fun x => !IsPathSeparator x))
          (out1 ++ rest.takeWhile (fun x => !IsPathSeparator x)) dotdot

/-- Go `filepath.Clean` on Unix. -/
def Clean (path : List Char) : List Char :=
  match path with
  | [] => ['.']
  | c :: t =>
    let rooted := IsPathSeparator c
    let out :=
      if rooted then cleanLoop true t.length t ['/'] 1
      else cleanLoop false path.length path [] 0
    if out = [] then ['.'] else out

/-- Go `strings.Join`. -/
def stringsJoin (elems : List (List Char)) (sep : List Char) : List Char :=
  sep.intercalate elems

/-- Go `filepath.Join`: the elements from the first non-empty one on are joined
with the separator and cleaned; no non-empty element gives the empty string. -/
def Join : List (List Char) → List Char
  | [] => []
  | e :: es => if e ≠ [] then Clean (stringsJoin (e :: es) ['/']) else Join es

/-- The scan of `Dir`: `i := len(path) - 1; for i >= 0 && !IsPathSeparator(path[i]) { i-- }`;
returns `i + 1`. -/
def dirIndex (path : List Char) : Nat → Nat
  | 0 => 0
  | i + 1 => if IsPathSeparator (path.getD i '.') then i + 1 else dirIndex path i

/-- Go `filepath.Dir` on Unix. -/
def Dir (path : List Char) : List Char :=
  Clean (path.take (dirIndex path path.length))

/-- Errors of the embedded functions.  `ext` stands for an error produced by an
external collaborator, `relCantMake` is the error of `filepath.Rel`; the other
constructors are the errors built in `cli.go`. -/
inductive Err where
  | ext (id : Nat)
  | relCantMake (targpath basepath : List Char)
  | noTargetsMatched
  | gettingWorkingDirectory (e : Err)
  | creatingBuildContext (e : Err)
  | buildingTargets (e : Err)
  | absManifest (e : Err)
  | makingPathRelative (e : Err)
  | writingManifest (e : Err)
  | failedToDecodePEM (path : List Char)
  | trailingData (path : List Char)
  deriving DecidableEq, Repr

/-- State of the element-matching loop of `Rel` when it stops: `base[b0:bi]`,
`base[b0:]` and `targ[t0:]`. -/
structure RelPos where
  elem : List Char
  baseRest : List Char
  targRest : List Char
  deriving DecidableEq, Repr

/-- The loop of `Rel` that positions `base[b0:bi]` and `targ[t0:ti]` at the
first differing elements.  `base` is `base[b0:]` and `targ` is `targ[t0:]` at
the head of an iteration (where `bi = b0`, `ti = t0`).  The loop goes on while
elements of the base are left; a target that is used up counts as an empty
element, so that the next element of the base is then the differing one. -/
def relLoop : Nat → List Char → List Char → RelPos
  | 0, base, targ => ⟨[], base, targ⟩
  | fuel + 1, base, targ =>
    if base ≠ [] then
      let be := base.takeWhile (fun x => !IsPathSeparator x)
      let te := targ.takeWhile (fun x => !IsPathSeparator x)
      if te ≠ be then ⟨be, base, targ⟩
      else
        relLoop fuel ((base.dropWhile (fun x => !IsPathSeparator x)).drop 1)
          ((targ.dropWhile (fun x => !IsPathSeparator x)).drop 1)
    else ⟨[], base, targ⟩

/-- The `..`, `/..`, ... prefix written by `Rel` for `seps` separators left in base. -/
def dotdots : Nat → List Char
  | 0 => ['.', '.']
  | n + 1 => dotdots n ++ ['/', '.', '.']

/-- Go `filepath.Rel` on Unix. -/
def Rel (basepath targpath : List Char) : Except Err (List Char) :=
  let base := Clean basepath
  let targ := Clean targpath
  if targ = base then .ok ['.']
  else
    let base := if base = ['.'] then [] else base
    if IsAbs base ≠ IsAbs targ then .error (.relCantMake targpath basepath)
    else
      let p := relLoop (base.length + 1) base targ
      if p.elem = ['.', '.'] then .error (.relCantMake targpath basepath)
      else if p.baseRest ≠ [] then
        -- Base elements left. Must go up before going down.
        let seps := p.baseRest.count '/'
        .ok (dotdots seps ++ (if p.targRest ≠ [] then '/' :: p.targRest else []))
      else .ok p.targRest

/-- Go `filepath.Abs` on Unix (`unixAbs`); `getwd` is the result of `os.Getwd`,
consulted only for a relative path. -/
def Abs (getwd : Except Err (List Char)) (path : List Char) : Except Err (List Char) :=
  if IsAbs path then .ok (Clean path)
  else
    match getwd with
    | .error e => .error e
    | .ok wd => .ok (Join [wd, path])

/-! ## `release/dist/cli/cli.go` -/

/-- A release target (`dist.Target`), seen through its `String()` name. -/
structure Target where
  name : List Char
  deriving DecidableEq, Repr

/-- The fields of the build context `*dist.Build` that `runBuild` touches. -/
structure Build where
  Out : List Char
  Verbose : Bool
  deriving DecidableEq, Repr

/-- The package variable `buildArgs`, filled in by the flag set of `build`. -/
structure BuildArgs where
  manifest : List Char
  verbose : Bool
  tgzSigningKey : List Char
  deriving DecidableEq, Repr

/-- The observable actions of `runList` and `runBuild`, in program order. -/
inductive Event where
  | getwd
  | newBuild (wd out : List Char)
  | build (b : Build) (tgts : List Target)
  | writeFile (name data : List Char) (perm : Nat)
  | close
  | printDone
  | printTarget (t : Target)
  deriving DecidableEq, Repr

/-- The collaborators of `runList` and `runBuild` that live outside the file:
`dist.FilterTargets`, `os.Getwd` (as called by `runBuild` and, later, inside
`filepath.Abs`), `dist.NewBuild`, the method `(*dist.Build).Build` (which gets
the context through a pointer, so it also returns the context it leaves behind)
and `os.WriteFile`. -/
structure Env where
  FilterTargets : List Target → List (List Char) → Except Err (List Target)
  Getwd : Except Err (List Char)
  AbsGetwd : Except Err (List Char)
  NewBuild : List Char → List Char → Except Err Build
  BuildTargets : Build → List Target → Build × Except Err (List (List Char))
  WriteFile : List Char → List Char → Nat → Option Err

/-- The function `runList`. -/
def runList (env : Env) (filters : List (List Char)) (targets : List Target) :
    Option Err × List Event :=
  let filters := if filters.length = 0 then [['a', 'l', 'l']] else filters
  match env.FilterTargets targets filters with
  | .error err => (some err, [])
  | .ok tgts => (none, tgts.map Event.printTarget)

/-- The path of a build output before it is made relative: `out[i]` itself when
it is absolute, otherwise `filepath.Join(b.Out, out[i])`. -/
def outputPath (bOut o : List Char) : List Char :=
  if IsAbs o = false then Join [bOut, o] else o

/-- One iteration of the loop `for i := range out` of `runBuild`: the manifest
entry `rel` for `out[i]`. -/
def manifestEntry (bOut manifest o : List Char) : Except Err (List Char) :=
  match Rel (Dir manifest) (outputPath bOut o) with
  | .error err => .error (.makingPathRelative err)
  | .ok rel => .ok rel

/-- The loop `for i := range out` of `runBuild`; it returns at the first entry
that cannot be made relative. -/
def relativize (bOut manifest : List Char) : List (List Char) → Except Err (List (List Char))
  | [] => .ok []
  | o :: os =>
    match manifestEntry bOut manifest o with
    | .error err => .error err
    | .ok rel =>
      match relativize bOut manifest os with
      | .error err => .error err
      | .ok rels => .ok (rel :: rels)

/-- The part of `runBuild` after `defer b.Close()`. -/
def runBuildBody (env : Env) (buildArgs : BuildArgs) (b0 : Build) (tgts : List Target) :
    Option Err × List Event :=
  let b1 : Build := { b0 with Verbose := buildArgs.verbose }
  match env.BuildTargets b1 tgts with
  | (_, .error err) => (some (.buildingTargets err), [.build b1 tgts])
  | (b, .ok out) =>
    if buildArgs.manifest ≠ [] then
      -- Make the built paths relative to the manifest file.
      let absEvents := if IsAbs buildArgs.manifest then [] else [Event.getwd]
      match Abs env.AbsGetwd buildArgs.manifest with
      | .error err => (some (.absManifest err), .build b1 tgts :: absEvents)
      | .ok manifest =>
        match relativize b.Out manifest out with
        | .error err => (some err, .build b1 tgts :: absEvents)
        | .ok rels =>
          let data := stringsJoin rels ['\n']
          match env.WriteFile manifest data 0o644 with
          | some err =>
            (some (.writingManifest err),
              .build b1 tgts :: absEvents ++ [.writeFile manifest data 0o644])
          | none =>
            (none, .build b1 tgts :: absEvents ++ [.writeFile manifest data 0o644, .printDone])
    else (none, [.build b1 tgts, .printDone])

/-- The function `runBuild`.  The deferred `b.Close()` runs when the function
returns, on every path after the `defer` statement. -/
def runBuild (env : Env) (buildArgs : BuildArgs) (filters : List (List Char))
    (targets : List Target) : Option Err × List Event :=
  match env.FilterTargets targets filters with
  | .error err => (some err, [])
  | .ok tgts =>
    if tgts.length = 0 then (some .noTargetsMatched, [])
    else
      match env.Getwd with
      | .error err => (some (.gettingWorkingDirectory err), [.getwd])
      | .ok wd =>
        match env.NewBuild wd (Join [wd, ['d', 'i', 's', 't']]) with
        | .error err =>
          (some (.creatingBuildContext err), [.getwd, .newBuild wd (Join [wd, ['d', 'i', 's', 't']])])
        | .ok b =>
          let r := runBuildBody env buildArgs b tgts
          (r.1, [.getwd, .newBuild wd (Join [wd, ['d', 'i', 's', 't']])] ++ r.2 ++ [.close])

/-- A decoded PEM block (`pem.Block`), of which only `Bytes` is used. -/
structure PemBlock where
  Bytes : List UInt8
  deriving DecidableEq, Repr

/-- The calls `parseSigningKey` makes, in program order. -/
inductive KeyEvent where
  | readFile (path : List Char)
  | pemDecode (raw : List UInt8)
  | parseECPrivateKey (der : List UInt8)
  deriving DecidableEq, Repr

/-- The collaborators of `parseSigningKey`: `os.ReadFile`, `pem.Decode` (block
or nil, and the rest of the input) and `x509.ParseECPrivateKey`. -/
structure KeyEnv (Signer : Type) where
  ReadFile : List Char → Except Err (List UInt8)
  pemDecode : List UInt8 → Option PemBlock × List UInt8
  ParseECPrivateKey : List UInt8 → Except Err Signer

/-- A value of the interface type `crypto.Signer` as `parseSigningKey` returns
it: the nil interface, the interface that holds a nil `*ecdsa.PrivateKey` (what
the conversion of the pointer of a failed parse gives), or a key. -/
inductive SignerValue (Signer : Type) where
  | nil
  | nilKey
  | key (k : Signer)
  deriving DecidableEq, Repr

/-- The function `parseSigningKey`.  The result is the pair `(signer, error)`
of the source, `none` standing for the nil error, together with the calls made.
The last statement returns the two results of `x509.ParseECPrivateKey`, the
pointer converted to `crypto.Signer`. -/
def parseSigningKey {Signer : Type} (env : KeyEnv Signer) (path : List Char) :
    (SignerValue Signer × Option Err) × List KeyEvent :=
  if path = [] then ((.nil, none), [])
  else
    match env.ReadFile path with
    | .error err => ((.nil, some err), [.readFile path])
    | .ok raw =>
      match env.pemDecode raw with
      | (none, _) => ((.nil, some (.failedToDecodePEM path)), [.readFile path, .pemDecode raw])
      | (some b, rest) =>
        if 0 < rest.length then
          ((.nil, some (.trailingData path)), [.readFile path, .pemDecode raw])
        else
          match env.ParseECPrivateKey b.Bytes with
          | .error err =>
            ((.nilKey, some err), [.readFile path, .pemDecode raw, .parseECPrivateKey b.Bytes])
          | .ok key =>
            ((.key key, none), [.readFile path, .pemDecode raw, .parseECPrivateKey b.Bytes])

/-! ## `cmd/tailscale/cli/update.go` -/

/-- The package variable `updateArgs`, filled in by the flag set of `update`. -/
structure UpdateArgs where
  yes : Bool
  dryRun : Bool
  appStore : Bool
  track : List Char
  version : List Char
  deriving DecidableEq, Repr

/-- What `confirmUpdate` prints or reads, in program order. -/
inductive ConfirmEvent where
  | printContinuing (ver : List Char)
  | printCurrentLatest (ver : List Char)
  | printPrompt (ver : List Char)
  | scanln
  deriving DecidableEq, Repr

/-- The function `confirmUpdate`.  `ToLower` is `strings.ToLower` and `resp` is
the word `fmt.Scanln` stores. -/
def confirmUpdate (updateArgs : UpdateArgs) (ToLower : List Char → List Char)
    (resp : List Char) (ver : List Char) : Bool × List ConfirmEvent :=
  if updateArgs.yes then (true, [.printContinuing ver])
  else if updateArgs.dryRun then (false, [.printCurrentLatest ver])
  else
    let resp := ToLower resp
    if resp = ['y'] ∨ resp = ['y', 'e', 's'] ∨ resp = ['s', 'u', 'r', 'e'] then
      (true, [.printPrompt ver, .scanln])
    else (false, [.printPrompt ver, .scanln])

/-! ## Paths as lists of elements -/

/-- A path element: non-empty and without separator. -/
def IsElem (c : List Char) : Prop := c ≠ [] ∧ '/' ∉ c

/-- A path element other than `.` and `..`. -/
def IsNormal (c : List Char) : Prop := IsElem c ∧ c ≠ ['.'] ∧ c ≠ ['.', '.']

/-- The elements written one after the other with a separator in between. -/
def joinElems : List (List Char) → List Char
  | [] => []
  | c :: cs => if cs = [] then c else c ++ '/' :: joinElems cs

/-- The pieces of a path between its separators, empty pieces included. -/
def splitSep : List Char → List (List Char)
  | [] => [[]]
  | c :: t =>
    if c = '/' then [] :: splitSep t
    else (c :: (splitSep t).headD []) :: (splitSep t).tail

/-- The elements of a path: its non-empty pieces between separators. -/
def comps (path : List Char) : List (List Char) :=
  (splitSep path).filter (fun c => c ≠ [])

/-- Lexical processing of one element, on a path seen as `k` leading `..`
elements followed by the elements `st`: `.` is dropped, `..` removes the last
element of `st` if there is one and is otherwise kept (unrooted) or dropped
(rooted), every other element is added at the end. -/
def cleanStep (rooted : Bool) (s : Nat × List (List Char)) (c : List Char) :
    Nat × List (List Char) :=
  if c = ['.'] then s
  else if c = ['.', '.'] then
    if s.2 ≠ [] then (s.1, s.2.dropLast)
    else if rooted = true then s
    else (s.1 + 1, s.2)
  else (s.1, s.2 ++ [c])

/-- The text of a path with `k` leading `..` elements followed by the elements `st`. -/
def render (rooted : Bool) (k : Nat) (st : List (List Char)) : List Char :=
  (if rooted = true then ['/'] else []) ++ joinElems (List.replicate k ['.', '.'] ++ st)

/-- The value of `dotdot` in `Clean` after `k` leading `..` elements. -/
def dotdotIndex (rooted : Bool) (k : Nat) : Nat :=
  if rooted = true then 1 else (joinElems (List.replicate k ['.', '.'])).length

/-- The two lists of elements without their longest common beginning. -/
def stripCommon : List (List Char) → List (List Char) → List (List Char) × List (List Char)
  | [], ts => ([], ts)
  | b :: bs, [] => (b :: bs, [])
  | b :: bs, t :: ts => if b = t then stripCommon bs ts else (b :: bs, t :: ts)

/-! ## Sample collaborators -/

/-- The list with the single filter `all`. -/
def allFilter : List (List Char) := [['a', 'l', 'l']]

/-- A registry of three targets. -/
def registryABC : List Target := [⟨['A']⟩, ⟨['B']⟩, ⟨['C']⟩]

/-- A target filter without a default, as a sample collaborator: the filter
`all` keeps the whole registry, any other filter keeps the targets it names,
and no filters keep nothing. -/
def filterNoDefault (targets : List Target) (filters : List (List Char)) :
    Except Err (List Target) :=
  if filters.contains ['a', 'l', 'l'] then .ok targets
  else .ok (targets.filter (fun t => filters.contains t.name))

/-- Collaborators of the manifest scenario: the filter has no default, the
working directory is `/src`, the build context writes to the directory it is
given, the build yields the single output `/out/pkgs/a.tgz`, and writing
succeeds. -/
def scenarioEnv : Env where
  FilterTargets := filterNoDefault
  Getwd := .ok "/src".toList
  AbsGetwd := .ok "/src".toList
  NewBuild := fun _ out => .ok ⟨out, false⟩
  BuildTargets := fun b _ => (b, .ok ["/out/pkgs/a.tgz".toList])
  WriteFile := fun _ _ _ => none

/-- The collaborators of the manifest scenario with a build whose single output
is `/out/a` followed by a newline. -/
def newlineEnv : Env :=
  { scenarioEnv with BuildTargets := fun b _ => (b, .ok ["/out/a\n".toList]) }

/-- Build arguments with the manifest path `/out/manifest.txt`. -/
def scenarioArgs : BuildArgs := ⟨"/out/manifest.txt".toList, false, []⟩

/-- Key-file collaborators over byte lists: the file holds the bytes `[1, 2]`,
PEM decoding of a non-empty input yields its first byte as the block and leaves
the rest, and every block parses to itself. -/
def sampleKeyEnv : KeyEnv (List UInt8) where
  ReadFile := fun _ => .ok [1, 2]
  pemDecode := fun raw =>
    match raw with
    | [] => (none, [])
    | x :: rest => (some ⟨[x]⟩, rest)
  ParseECPrivateKey := fun der => .ok der

/-- Whether an event is a write of the manifest file. -/
def Event.isWriteFile : Event → Bool
  | .writeFile _ _ _ => true
  | _ => false

/-- Whether an event is a call of the build method. -/
def Event.isBuild : Event → Bool
  | .build _ _ => true
  | _ => false

/-! ## Theorems -/

/-! ### The control flow of `runBuild` -/

/-- How `runBuild` unfolds once the build context has been created. -/
theorem runBuild_of_context (env : Env) (buildArgs : BuildArgs) (filters : List (List Char))
    (targets tgts : List Target) (wd : List Char) (b : Build)
    (hf : env.FilterTargets targets filters = .ok tgts) (hne : tgts ≠ [])
    (hwd : env.Getwd = .ok wd)
    (hnb : env.NewBuild wd (Join [wd, ['d', 'i', 's', 't']]) = .ok b) :
    runBuild env buildArgs filters targets =
      ((runBuildBody env buildArgs b tgts).1,
        [.getwd, .newBuild wd (Join [wd, ['d', 'i', 's', 't']])] ++
          (runBuildBody env buildArgs b tgts).2 ++ [.close]) := by
  simp [runBuild, hf, hne, hwd, hnb]

/-- `runBuildBody` when the build fails. -/
theorem runBuildBody_build_error (env : Env) (buildArgs : BuildArgs) (b0 b : Build)
    (tgts : List Target) (err : Err)
    (hb : env.BuildTargets { b0 with Verbose := buildArgs.verbose } tgts = (b, .error err)) :
    runBuildBody env buildArgs b0 tgts =
      (some (.buildingTargets err), [.build { b0 with Verbose := buildArgs.verbose } tgts]) := by
  simp [runBuildBody, hb]

/-- `runBuildBody` when no manifest was asked for. -/
theorem runBuildBody_no_manifest (env : Env) (buildArgs : BuildArgs) (b0 b : Build)
    (tgts : List Target) (out : List (List Char))
    (hb : env.BuildTargets { b0 with Verbose := buildArgs.verbose } tgts = (b, .ok out))
    (hm : buildArgs.manifest = []) :
    runBuildBody env buildArgs b0 tgts =
      (none, [.build { b0 with Verbose := buildArgs.verbose } tgts, .printDone]) := by
  simp [runBuildBody, hb, hm]

/-- `runBuildBody` when the manifest path cannot be made absolute. -/
theorem runBuildBody_abs_error (env : Env) (buildArgs : BuildArgs) (b0 b : Build)
    (tgts : List Target) (out : List (List Char)) (err : Err)
    (hb : env.BuildTargets { b0 with Verbose := buildArgs.verbose } tgts = (b, .ok out))
    (hm : buildArgs.manifest ≠ [])
    (ha : Abs env.AbsGetwd buildArgs.manifest = .error err) :
    runBuildBody env buildArgs b0 tgts =
      (some (.absManifest err),
        .build { b0 with Verbose := buildArgs.verbose } tgts ::
          (if IsAbs buildArgs.manifest = true then [] else [Event.getwd])) := by
  simp [runBuildBody, hb, hm, ha]

/-- `runBuildBody` when some output path cannot be made relative. -/
theorem runBuildBody_rel_error (env : Env) (buildArgs : BuildArgs) (b0 b : Build)
    (tgts : List Target) (out : List (List Char)) (manifest : List Char) (err : Err)
    (hb : env.BuildTargets { b0 with Verbose := buildArgs.verbose } tgts = (b, .ok out))
    (hm : buildArgs.manifest ≠ [])
    (ha : Abs env.AbsGetwd buildArgs.manifest = .ok manifest)
    (hr : relativize b.Out manifest out = .error err) :
    runBuildBody env buildArgs b0 tgts =
      (some err,
        .build { b0 with Verbose := buildArgs.verbose } tgts ::
          (if IsAbs buildArgs.manifest = true then [] else [Event.getwd])) := by
  simp [runBuildBody, hb, hm, ha, hr]

/-- `runBuildBody` when every output path was made relative: the manifest is
written, and the result is that of the write. -/
theorem runBuildBody_write (env : Env) (buildArgs : BuildArgs) (b0 b : Build)
    (tgts : List Target) (out rels : List (List Char)) (manifest : List Char)
    (hb : env.BuildTargets { b0 with Verbose := buildArgs.verbose } tgts = (b, .ok out))
    (hm : buildArgs.manifest ≠ [])
    (ha : Abs env.AbsGetwd buildArgs.manifest = .ok manifest)
    (hr : relativize b.Out manifest out = .ok rels) :
    runBuildBody env buildArgs b0 tgts =
      ((env.WriteFile manifest (stringsJoin rels ['\n']) 0o644).map Err.writingManifest,
        .build { b0 with Verbose := buildArgs.verbose } tgts ::
          (if IsAbs buildArgs.manifest = true then [] else [Event.getwd]) ++
          [.writeFile manifest (stringsJoin rels ['\n']) 0o644] ++
          (if env.WriteFile manifest (stringsJoin rels ['\n']) 0o644 = none then [Event.printDone]
            else [])) := by
  cases hw : env.WriteFile manifest (stringsJoin rels ['\n']) 0o644 <;>
    simp [runBuildBody, hb, hm, ha, hr, hw]

/-- The body of `runBuild` never closes the build context itself. -/
theorem runBuildBody_no_close (env : Env) (buildArgs : BuildArgs) (b0 : Build)
    (tgts : List Target) : Event.close ∉ (runBuildBody env buildArgs b0 tgts).2 := by
  rcases hb : env.BuildTargets { b0 with Verbose := buildArgs.verbose } tgts with ⟨b, r⟩
  cases r with
  | error e => simp [runBuildBody, hb]
  | ok out =>
    by_cases hm : buildArgs.manifest = []
    · simp [runBuildBody, hb, hm]
    · cases ha : Abs env.AbsGetwd buildArgs.manifest with
      | error e => by_cases hi : IsAbs buildArgs.manifest = true <;> simp [runBuildBody, hb, hm, ha, hi]
      | ok manifest =>
        cases hr : relativize b.Out manifest out with
        | error e =>
          by_cases hi : IsAbs buildArgs.manifest = true <;> simp [runBuildBody, hb, hm, ha, hr, hi]
        | ok rels =>
          cases hw : env.WriteFile manifest (stringsJoin rels ['\n']) 420 <;>
            by_cases hi : IsAbs buildArgs.manifest = true <;>
            simp [runBuildBody, hb, hm, ha, hr, hw, hi]

/-- The body of `runBuild` calls the build method once, with the filtered
targets and the verbosity of the arguments. -/
theorem runBuildBody_build_events (env : Env) (buildArgs : BuildArgs) (b0 : Build)
    (tgts : List Target) :
    (runBuildBody env buildArgs b0 tgts).2.filter Event.isBuild =
      [.build { b0 with Verbose := buildArgs.verbose } tgts] := by
  have habs : List.filter Event.isBuild
      (if IsAbs buildArgs.manifest = true then ([] : List Event) else [Event.getwd]) = [] := by
    split <;> simp [Event.isBuild]
  rcases hb : env.BuildTargets { b0 with Verbose := buildArgs.verbose } tgts with ⟨b, r⟩
  cases r with
  | error e => simp [runBuildBody, hb, Event.isBuild]
  | ok out =>
    by_cases hm : buildArgs.manifest = []
    · simp [runBuildBody, hb, hm, Event.isBuild]
    · cases ha : Abs env.AbsGetwd buildArgs.manifest with
      | error e =>
        rw [runBuildBody_abs_error env buildArgs b0 b tgts out e hb hm ha]
        simp [List.filter_cons, Event.isBuild, habs]
      | ok manifest =>
        cases hr : relativize b.Out manifest out with
        | error e =>
          rw [runBuildBody_rel_error env buildArgs b0 b tgts out manifest e hb hm ha hr]
          simp [List.filter_cons, Event.isBuild, habs]
        | ok rels =>
          rw [runBuildBody_write env buildArgs b0 b tgts out rels manifest hb hm ha hr]
          have h2 : List.filter Event.isBuild
              (if env.WriteFile manifest (stringsJoin rels ['\n']) 0o644 = none
                then [Event.printDone] else []) = [] := by
            split <;> simp [Event.isBuild]
          simp [List.filter_append, List.filter_cons, Event.isBuild, habs, h2]

/-- The loop over the outputs succeeds exactly when every entry can be made
relative, and then yields the entries in order. -/
theorem relativize_ok_iff (bOut manifest : List Char) (out rels : List (List Char)) :
    relativize bOut manifest out = .ok rels ↔
      List.Forall₂ (fun o r => manifestEntry bOut manifest o = .ok r) out rels := by
  induction out generalizing rels with
  | nil =>
    cases rels <;> simp [relativize]
  | cons o os ih =>
    cases he : manifestEntry bOut manifest o with
    | error e =>
      simp only [relativize, he]
      constructor
      · intro h; cases h
      · intro h; cases h with | cons h1 _ => rw [he] at h1; cases h1
    | ok rel =>
      cases hr : relativize bOut manifest os with
      | error e =>
        simp only [relativize, he, hr]
        constructor
        · intro h; cases h
        · intro h
          cases h with
          | cons h1 h2 => rw [(ih _).mpr h2] at hr; cases hr
      | ok rs =>
        simp only [relativize, he, hr]
        constructor
        · intro h
          cases h
          exact List.Forall₂.cons he ((ih rs).mp hr)
        · intro h
          cases h with
          | cons h1 h2 =>
            rw [he] at h1
            cases h1
            have := (ih _).mpr h2
            rw [hr] at this
            cases this
            rfl

/-- The loop over the outputs fails as soon as one entry cannot be made relative. -/
theorem relativize_error_of_entry (bOut manifest : List Char) (out : List (List Char))
    (h : ∃ o ∈ out, ∃ err, manifestEntry bOut manifest o = .error err) :
    ∃ err, relativize bOut manifest out = .error err := by
  cases hr : relativize bOut manifest out with
  | error e => exact ⟨e, rfl⟩
  | ok rels =>
    exfalso
    obtain ⟨o, ho, err, herr⟩ := h
    have hall := (relativize_ok_iff bOut manifest out rels).mp hr
    clear hr
    induction hall with
    | nil => cases ho
    | cons h1 _ ih =>
      cases ho with
      | head => rw [herr] at h1; cases h1
      | tail _ hmem => exact ih hmem

/-- The manifest writes of a run of `runBuild`: either there is none, or every
step up to the write succeeded and there is exactly one, of the joined entries. -/
theorem runBuild_writes (env : Env) (buildArgs : BuildArgs) (filters : List (List Char))
    (targets : List Target) :
    ((runBuild env buildArgs filters targets).2.filter Event.isWriteFile = [] ∧
      (buildArgs.manifest = [] ∨ (runBuild env buildArgs filters targets).1 ≠ none)) ∨
    ∃ tgts wd b0 b out manifest rels,
      env.FilterTargets targets filters = .ok tgts ∧ tgts ≠ [] ∧ env.Getwd = .ok wd ∧
      env.NewBuild wd (Join [wd, ['d', 'i', 's', 't']]) = .ok b0 ∧
      env.BuildTargets { b0 with Verbose := buildArgs.verbose } tgts = (b, .ok out) ∧
      buildArgs.manifest ≠ [] ∧
      Abs env.AbsGetwd buildArgs.manifest = .ok manifest ∧
      relativize b.Out manifest out = .ok rels ∧
      (runBuild env buildArgs filters targets).2.filter Event.isWriteFile =
        [.writeFile manifest (stringsJoin rels ['\n']) 0o644] := by
  cases hf : env.FilterTargets targets filters with
  | error e => left; simp [runBuild, hf]
  | ok tgts =>
    by_cases hne : tgts = []
    · left; simp [runBuild, hf, hne]
    cases hwd : env.Getwd with
    | error e => left; simp [runBuild, hf, hne, hwd, Event.isWriteFile]
    | ok wd =>
      cases hnb : env.NewBuild wd (Join [wd, ['d', 'i', 's', 't']]) with
      | error e => left; simp [runBuild, hf, hne, hwd, hnb, Event.isWriteFile]
      | ok b0 =>
        rw [runBuild_of_context env buildArgs filters targets tgts wd b0 hf hne hwd hnb]
        have habs : List.filter Event.isWriteFile
            (if IsAbs buildArgs.manifest = true then ([] : List Event) else [Event.getwd]) = [] := by
          split <;> simp [Event.isWriteFile]
        rcases hb : env.BuildTargets { b0 with Verbose := buildArgs.verbose } tgts with ⟨b, r⟩
        cases r with
        | error e =>
          left
          rw [runBuildBody_build_error env buildArgs b0 b tgts e hb]
          simp [Event.isWriteFile]
        | ok out =>
          by_cases hm : buildArgs.manifest = []
          · left
            rw [runBuildBody_no_manifest env buildArgs b0 b tgts out hb hm]
            simp [Event.isWriteFile, hm]
          cases ha : Abs env.AbsGetwd buildArgs.manifest with
          | error e =>
            left
            rw [runBuildBody_abs_error env buildArgs b0 b tgts out e hb hm ha]
            simp [Event.isWriteFile, List.filter_append, List.filter_cons, habs]
          | ok manifest =>
            cases hr : relativize b.Out manifest out with
            | error e =>
              left
              rw [runBuildBody_rel_error env buildArgs b0 b tgts out manifest e hb hm ha hr]
              simp [Event.isWriteFile, List.filter_append, List.filter_cons, habs]
            | ok rels =>
              right
              refine ⟨tgts, wd, b0, b, out, manifest, rels, rfl, hne, rfl, hnb, hb, hm, rfl, hr, ?_⟩
              rw [runBuildBody_write env buildArgs b0 b tgts out rels manifest hb hm ha hr]
              have h2 : List.filter Event.isWriteFile
                  (if env.WriteFile manifest (stringsJoin rels ['\n']) 0o644 = none
                    then [Event.printDone] else []) = [] := by
                split <;> simp [Event.isWriteFile]
              simp [List.filter_append, List.filter_cons, Event.isWriteFile, habs, h2]

/-- The builds of a run of `runBuild` are all of the set the filter returned. -/
theorem runBuild_build_events (env : Env) (buildArgs : BuildArgs) (filters : List (List Char))
    (targets tgts : List Target) (hf : env.FilterTargets targets filters = .ok tgts) :
    ∀ b l, Event.build b l ∈ (runBuild env buildArgs filters targets).2 → l = tgts := by
  intro b l hmem
  by_cases hne : tgts = []
  · simp [runBuild, hf, hne] at hmem
  cases hwd : env.Getwd with
  | error e => simp [runBuild, hf, hne, hwd] at hmem
  | ok wd =>
    cases hnb : env.NewBuild wd (Join [wd, ['d', 'i', 's', 't']]) with
    | error e => simp [runBuild, hf, hne, hwd, hnb] at hmem
    | ok b0 =>
      rw [runBuild_of_context env buildArgs filters targets tgts wd b0 hf hne hwd hnb] at hmem
      have hmem2 : Event.build b l ∈ (runBuildBody env buildArgs b0 tgts).2 := by
        simpa using hmem
      have hfil : Event.build b l ∈
          (runBuildBody env buildArgs b0 tgts).2.filter Event.isBuild :=
        List.mem_filter.mpr ⟨hmem2, rfl⟩
      rw [runBuildBody_build_events] at hfil
      simp only [List.mem_singleton, Event.build.injEq] at hfil
      exact hfil.2

/-! ### Filtering, the build context and the manifest write -/

/-- C1: when the filtered set handed back to `runBuild` is empty, `runBuild`
returns the error "no targets matched" and has performed no action at all: no
`os.Getwd`, no build context, no build, no manifest write. -/
theorem runBuild_empty_filtered_set (env : Env) (buildArgs : BuildArgs)
    (filters : List (List Char)) (targets : List Target)
    (h : env.FilterTargets targets filters = .ok []) :
    runBuild env buildArgs filters targets = (some Err.noTargetsMatched, []) := by
  simp [runBuild, h]

/-- An empty registry: the filter hands back the empty set and nothing is done. -/
theorem runBuild_empty_filtered_set_witness :
    scenarioEnv.FilterTargets [] allFilter = .ok [] ∧
      runBuild scenarioEnv scenarioArgs allFilter [] = (some Err.noTargetsMatched, []) :=
  ⟨rfl, runBuild_empty_filtered_set scenarioEnv scenarioArgs allFilter [] rfl⟩

/-- C2 (the claim fails): with a target filter that has no default, `runBuild`
with no filters on the registry `[A, B, C]` returns "no targets matched" and
builds nothing, while with the filters `["all"]` it succeeds and builds
`[A, B, C]`; the two outcomes differ. -/
theorem runBuild_nil_filters_ne_all :
    runBuild scenarioEnv scenarioArgs [] registryABC = (some Err.noTargetsMatched, []) ∧
      (runBuild scenarioEnv scenarioArgs allFilter registryABC).1 = none ∧
      (runBuild scenarioEnv scenarioArgs allFilter registryABC).2.filter Event.isBuild =
        [.build ⟨"/src/dist".toList, false⟩ registryABC] ∧
      runBuild scenarioEnv scenarioArgs [] registryABC ≠
        runBuild scenarioEnv scenarioArgs allFilter registryABC := by
  decide

/-- C2 (amended): the empty filter list stands for `["all"]` in `runList`, not
in `runBuild`.  `runList` replaces an empty filter list by `["all"]` before it
calls the target filter: with no filters it prints what the filter returns for
`["all"]`, as it does with the filters `["all"]`.  `runBuild` hands its filters
to the target filter unchanged: its outcome depends on the filters only through
what the filter returns for them, every build it starts is of exactly the
returned set, and when the filter returns the empty set for no filters it fails
with "no targets matched" before any action. -/
theorem runList_defaults_to_all_runBuild_forwards (env : Env) (buildArgs : BuildArgs)
    (targets : List Target) :
    runList env [] targets = runList env allFilter targets ∧
    runList env [] targets =
      (match env.FilterTargets targets allFilter with
        | .error err => (some err, [])
        | .ok tgts => (none, tgts.map Event.printTarget)) ∧
    (∀ f1 f2, env.FilterTargets targets f1 = env.FilterTargets targets f2 →
      runBuild env buildArgs f1 targets = runBuild env buildArgs f2 targets) ∧
    (∀ filters tgts, env.FilterTargets targets filters = .ok tgts →
      ∀ b l, Event.build b l ∈ (runBuild env buildArgs filters targets).2 → l = tgts) ∧
    (env.FilterTargets targets [] = .ok [] →
      runBuild env buildArgs [] targets = (some Err.noTargetsMatched, [])) := by
  refine ⟨?_, ?_, ?_, ?_, ?_⟩
  · simp [runList, allFilter]
  · simp [runList, allFilter]
  · intro f1 f2 h
    simp only [runBuild, h]
  · intro filters tgts hf
    exact runBuild_build_events env buildArgs filters targets tgts hf
  · intro h
    simp [runBuild, h]

/-- The registry `[A, B, C]` with a filter that has no default: `runList` with
no filters prints `A`, `B`, `C`; `runBuild` with no filters fails with "no
targets matched"; `runBuild` with `["all"]` builds no other set than
`[A, B, C]`. -/
theorem runList_defaults_to_all_runBuild_forwards_witness :
    runList scenarioEnv [] registryABC = (none, registryABC.map Event.printTarget) ∧
      runBuild scenarioEnv scenarioArgs [] registryABC = (some Err.noTargetsMatched, []) ∧
      (∀ b l, Event.build b l ∈ (runBuild scenarioEnv scenarioArgs allFilter registryABC).2 →
        l = registryABC) :=
  ⟨(runList_defaults_to_all_runBuild_forwards scenarioEnv scenarioArgs registryABC).2.1,
    (runList_defaults_to_all_runBuild_forwards scenarioEnv scenarioArgs registryABC).2.2.2.2
      (by decide),
    (runList_defaults_to_all_runBuild_forwards scenarioEnv scenarioArgs registryABC).2.2.2.1
      allFilter registryABC (by decide)⟩

/-- C9: `Close` is called exactly once, as the last action, in every run of
`runBuild` in which the build context was created, whatever happens afterwards,
and is never called in a run that returns before or at a failed creation. -/
theorem runBuild_close_exactly_once (env : Env) (buildArgs : BuildArgs)
    (filters : List (List Char)) (targets : List Target) :
    ((∃ tgts wd b, env.FilterTargets targets filters = .ok tgts ∧ tgts ≠ [] ∧
          env.Getwd = .ok wd ∧ env.NewBuild wd (Join [wd, ['d', 'i', 's', 't']]) = .ok b) →
        (runBuild env buildArgs filters targets).2.count Event.close = 1 ∧
          (runBuild env buildArgs filters targets).2.getLast? = some Event.close) ∧
    ((¬ ∃ tgts wd b, env.FilterTargets targets filters = .ok tgts ∧ tgts ≠ [] ∧
          env.Getwd = .ok wd ∧ env.NewBuild wd (Join [wd, ['d', 'i', 's', 't']]) = .ok b) →
        (runBuild env buildArgs filters targets).2.count Event.close = 0) := by
  constructor
  · rintro ⟨tgts, wd, b, hf, hne, hwd, hnb⟩
    rw [runBuild_of_context env buildArgs filters targets tgts wd b hf hne hwd hnb]
    have h := runBuildBody_no_close env buildArgs b tgts
    constructor
    · simp [List.count_cons, List.count_eq_zero_of_not_mem h]
    · rw [List.getLast?_append]
      simp
  · intro hno
    unfold runBuild
    split
    · simp
    · rename_i tgts hf
      split
      · simp
      · rename_i hlen
        split
        · simp
        · rename_i wd hwd
          split
          · simp
          · rename_i b hnb
            exact absurd ⟨tgts, wd, b, hf, by simpa using hlen, hwd, hnb⟩ hno

/-- A run that creates the build context closes it once, at the end; a run on
an empty registry never does. -/
theorem runBuild_close_exactly_once_witness :
    (runBuild scenarioEnv scenarioArgs allFilter registryABC).2.count Event.close = 1 ∧
      (runBuild scenarioEnv scenarioArgs allFilter registryABC).2.getLast? = some Event.close ∧
      (runBuild scenarioEnv scenarioArgs allFilter []).2.count Event.close = 0 :=
  ⟨((runBuild_close_exactly_once scenarioEnv scenarioArgs allFilter registryABC).1
      ⟨registryABC, "/src".toList, ⟨"/src/dist".toList, false⟩, by decide, by decide, rfl,
        by decide⟩).1,
    ((runBuild_close_exactly_once scenarioEnv scenarioArgs allFilter registryABC).1
      ⟨registryABC, "/src".toList, ⟨"/src/dist".toList, false⟩, by decide, by decide, rfl,
        by decide⟩).2,
    by decide⟩

/-- C8: the manifest is never partially written.  In every run of `runBuild`
the manifest file is written at most once; a write happens only after the build
succeeded, the manifest path was resolved and every output path was made
relative, and it writes all the entries; and when the build fails, or the
manifest path cannot be resolved, or some output path cannot be made relative,
`runBuild` returns a non-nil error and writes nothing. -/
theorem runBuild_manifest_written_whole (env : Env) (buildArgs : BuildArgs)
    (filters : List (List Char)) (targets : List Target) :
    (runBuild env buildArgs filters targets).2.countP Event.isWriteFile ≤ 1 ∧
    (∀ name data perm, Event.writeFile name data perm ∈ (runBuild env buildArgs filters targets).2 →
      ∃ tgts wd b0 b out rels,
        env.FilterTargets targets filters = .ok tgts ∧ env.Getwd = .ok wd ∧
        env.NewBuild wd (Join [wd, ['d', 'i', 's', 't']]) = .ok b0 ∧
        env.BuildTargets { b0 with Verbose := buildArgs.verbose } tgts = (b, .ok out) ∧
        Abs env.AbsGetwd buildArgs.manifest = .ok name ∧
        List.Forall₂ (fun o r => manifestEntry b.Out name o = .ok r) out rels ∧
        data = stringsJoin rels ['\n']) ∧
    (∀ tgts wd b0 b res,
      env.FilterTargets targets filters = .ok tgts → tgts ≠ [] → env.Getwd = .ok wd →
      env.NewBuild wd (Join [wd, ['d', 'i', 's', 't']]) = .ok b0 →
      env.BuildTargets { b0 with Verbose := buildArgs.verbose } tgts = (b, res) →
      ((∃ err, res = .error err) ∨
        (buildArgs.manifest ≠ [] ∧ ∃ out, res = .ok out ∧
          ((∃ err, Abs env.AbsGetwd buildArgs.manifest = .error err) ∨
            ∃ manifest, Abs env.AbsGetwd buildArgs.manifest = .ok manifest ∧
              ∃ o ∈ out, ∃ err, manifestEntry b.Out manifest o = .error err))) →
      (runBuild env buildArgs filters targets).1 ≠ none ∧
        ∀ e ∈ (runBuild env buildArgs filters targets).2, e.isWriteFile = false) := by
  refine ⟨?_, ?_, ?_⟩
  · rw [List.countP_eq_length_filter]
    rcases runBuild_writes env buildArgs filters targets with ⟨h, _⟩ | ⟨_, _, _, _, _, _, _, _, _, _, _, _, _, _, _, h⟩ <;>
      simp [h]
  · intro name data perm hmem
    have hmem2 : Event.writeFile name data perm ∈
        (runBuild env buildArgs filters targets).2.filter Event.isWriteFile :=
      List.mem_filter.mpr ⟨hmem, rfl⟩
    rcases runBuild_writes env buildArgs filters targets with ⟨h, _⟩ |
      ⟨tgts, wd, b0, b, out, manifest, rels, hf, _, hwd, hnb, hb, _, ha, hr, h⟩
    · rw [h] at hmem2; cases hmem2
    · rw [h] at hmem2
      simp only [List.mem_singleton, Event.writeFile.injEq] at hmem2
      obtain ⟨rfl, rfl, rfl⟩ := hmem2
      exact ⟨tgts, wd, b0, b, out, rels, hf, hwd, hnb, hb, ha,
        (relativize_ok_iff _ _ _ _).mp hr, rfl⟩
  · intro tgts wd b0 b res hf hne hwd hnb hb hfail
    have hnone : (runBuild env buildArgs filters targets).1 ≠ none := by
      rw [runBuild_of_context env buildArgs filters targets tgts wd b0 hf hne hwd hnb]
      rcases hfail with ⟨err, rfl⟩ | ⟨hm, out, rfl, hrest⟩
      · rw [runBuildBody_build_error env buildArgs b0 b tgts err hb]
        simp
      · rcases hrest with ⟨err, ha⟩ | ⟨manifest, ha, hentry⟩
        · rw [runBuildBody_abs_error env buildArgs b0 b tgts out err hb hm ha]
          simp
        · obtain ⟨err, hr⟩ := relativize_error_of_entry b.Out manifest out hentry
          rw [runBuildBody_rel_error env buildArgs b0 b tgts out manifest err hb hm ha hr]
          simp
    refine ⟨hnone, ?_⟩
    intro e he
    cases hw : e.isWriteFile with
    | false => rfl
    | true =>
      exfalso
      have hmem : e ∈ (runBuild env buildArgs filters targets).2.filter Event.isWriteFile :=
        List.mem_filter.mpr ⟨he, hw⟩
      rcases runBuild_writes env buildArgs filters targets with ⟨h, _⟩ |
        ⟨tgts2, wd2, b02, b2, out2, manifest2, rels2, hf2, _, hwd2, hnb2, hb2, hm2, ha2, hr2, _⟩
      · rw [h] at hmem; cases hmem
      · rw [hf] at hf2; cases hf2
        rw [hwd] at hwd2; cases hwd2
        rw [hnb] at hnb2; cases hnb2
        rw [hb] at hb2; cases hb2
        rcases hfail with ⟨err, herr⟩ | ⟨_, out, hout, hrest⟩
        · cases herr
        · cases hout
          rcases hrest with ⟨err, ha⟩ | ⟨manifest, ha, hentry⟩
          · rw [ha] at ha2; cases ha2
          · rw [ha] at ha2
            cases ha2
            obtain ⟨err, hr⟩ := relativize_error_of_entry _ _ _ hentry
            rw [hr] at hr2
            cases hr2

/-- A run writes the manifest at most once; a run whose output directory is
relative cannot make its output relative to the manifest, fails and writes
nothing. -/
theorem runBuild_manifest_written_whole_witness :
    (runBuild scenarioEnv ⟨"/out/manifest.txt".toList, false, []⟩ allFilter registryABC).2.countP
        Event.isWriteFile ≤ 1 ∧
      (runBuild { scenarioEnv with BuildTargets := fun b _ => (b, .ok ["a.tgz".toList]),
                                   NewBuild := fun _ _ => .ok ⟨"dist".toList, false⟩ }
          scenarioArgs allFilter registryABC).1 ≠ none ∧
      ∀ e ∈ (runBuild { scenarioEnv with BuildTargets := fun b _ => (b, .ok ["a.tgz".toList]),
                                         NewBuild := fun _ _ => .ok ⟨"dist".toList, false⟩ }
          scenarioArgs allFilter registryABC).2, e.isWriteFile = false :=
  ⟨(runBuild_manifest_written_whole scenarioEnv ⟨"/out/manifest.txt".toList, false, []⟩
      allFilter registryABC).1,
    (runBuild_manifest_written_whole
      { scenarioEnv with BuildTargets := fun b _ => (b, .ok ["a.tgz".toList]),
                         NewBuild := fun _ _ => .ok ⟨"dist".toList, false⟩ }
      scenarioArgs allFilter registryABC).2.2 registryABC "/src".toList ⟨"dist".toList, false⟩
      ⟨"dist".toList, false⟩ (.ok ["a.tgz".toList]) rfl (by decide) rfl rfl rfl
      (Or.inr ⟨by decide, ["a.tgz".toList], rfl,
        Or.inr ⟨"/out/manifest.txt".toList, by decide, "a.tgz".toList, by simp,
          Err.makingPathRelative (.relCantMake "dist/a.tgz".toList "/out".toList),
          by decide⟩⟩)⟩

/-! ### The signing key -/

/-- C4: `parseSigningKey` on the empty path returns a nil signer and a nil
error, and makes no call at all (in particular it reads no file). -/
theorem parseSigningKey_empty_path {Signer : Type} (env : KeyEnv Signer) :
    parseSigningKey env [] = ((.nil, none), []) := by
  simp [parseSigningKey]

/-- C3: for a non-empty path whose file is read successfully, `parseSigningKey`
returns a signer and a nil error exactly when PEM decoding yields a block with
nothing left over and the block parses as an EC private key; a block followed
by more bytes gives the trailing-data error and no block gives the PEM-decode
error, in both cases with no call of the key parser. -/
theorem parseSigningKey_success_iff {Signer : Type} (env : KeyEnv Signer)
    (path : List Char) (raw : List UInt8) (hpath : path ≠ [])
    (hread : env.ReadFile path = .ok raw) :
    ((∃ key, (parseSigningKey env path).1 = (.key key, none)) ↔
        ∃ b, env.pemDecode raw = (some b, []) ∧ ∃ key, env.ParseECPrivateKey b.Bytes = .ok key) ∧
    (((parseSigningKey env path).1.2 = none) ↔
        ∃ b, env.pemDecode raw = (some b, []) ∧ ∃ key, env.ParseECPrivateKey b.Bytes = .ok key) ∧
    (∀ b rest, env.pemDecode raw = (some b, rest) → rest ≠ [] →
        parseSigningKey env path =
          ((.nil, some (Err.trailingData path)), [.readFile path, .pemDecode raw])) ∧
    ((env.pemDecode raw).1 = none →
        parseSigningKey env path =
          ((.nil, some (Err.failedToDecodePEM path)), [.readFile path, .pemDecode raw])) := by
  rcases hdec : env.pemDecode raw with ⟨blk, rest⟩
  cases blk with
  | none => simp [parseSigningKey, hpath, hread, hdec]
  | some b =>
    cases rest with
    | cons x xs => simp [parseSigningKey, hpath, hread, hdec]
    | nil =>
      cases hkey : env.ParseECPrivateKey b.Bytes with
      | error e => simp [parseSigningKey, hpath, hread, hdec, hkey]
      | ok key => simp [parseSigningKey, hpath, hread, hdec, hkey]

/-- A key file with bytes left after the first block is rejected with the
trailing-data error, the parser not being called. -/
theorem parseSigningKey_success_iff_witness :
    ['k'] ≠ [] ∧ sampleKeyEnv.ReadFile ['k'] = .ok [1, 2] ∧
      parseSigningKey sampleKeyEnv ['k'] =
        ((.nil, some (Err.trailingData ['k'])), [.readFile ['k'], .pemDecode [1, 2]]) :=
  ⟨by decide, rfl,
    (parseSigningKey_success_iff sampleKeyEnv ['k'] [1, 2] (by decide) rfl).2.2.1
      ⟨[1]⟩ [2] rfl (by decide)⟩

/-! ### Confirmation of an update -/

/-- C10 (the code at the failing input): with both `yes` and `dryRun` set,
`confirmUpdate` returns true, so the updater is told to proceed. -/
theorem confirmUpdate_yes_overrides_dryRun (appStore : Bool) (track version : List Char)
    (ToLower : List Char → List Char) (resp ver : List Char) :
    confirmUpdate ⟨true, true, appStore, track, version⟩ ToLower resp ver =
      (true, [.printContinuing ver]) := by
  simp [confirmUpdate]

/-- With `dryRun` set and `yes` not set, `confirmUpdate` returns false without
prompting. -/
theorem confirmUpdate_dryRun_without_yes (appStore : Bool) (track version : List Char)
    (ToLower : List Char → List Char) (resp ver : List Char) :
    confirmUpdate ⟨false, true, appStore, track, version⟩ ToLower resp ver =
      (false, [.printCurrentLatest ver]) := by
  simp [confirmUpdate]

/-! ### Elements and separators -/

theorem takeWhile_elem_append (c t : List Char) (hc : '/' ∉ c) (ht : t = [] ∨ IsAbs t = true) :
    (c ++ t).takeWhile (fun x => !IsPathSeparator x) = c := by
  induction c with
  | nil =>
    rcases ht with rfl | ht
    · rfl
    · cases t with
      | nil => rfl
      | cons a t =>
        simp only [IsAbs, beq_iff_eq] at ht
        subst ht
        simp [IsPathSeparator]
  | cons a c ih =>
    have ha : a ≠ '/' := fun h => hc (h ▸ List.mem_cons_self _ _)
    have hc2 : '/' ∉ c := fun h => hc (List.mem_cons_of_mem _ h)
    simp [IsPathSeparator, ha]
    simpa [IsPathSeparator] using ih hc2

theorem dropWhile_elem_append (c t : List Char) (hc : '/' ∉ c) (ht : t = [] ∨ IsAbs t = true) :
    (c ++ t).dropWhile (fun x => !IsPathSeparator x) = t := by
  induction c with
  | nil =>
    rcases ht with rfl | ht
    · rfl
    · cases t with
      | nil => rfl
      | cons a t =>
        simp only [IsAbs, beq_iff_eq] at ht
        subst ht
        simp [IsPathSeparator]
  | cons a c ih =>
    have ha : a ≠ '/' := fun h => hc (h ▸ List.mem_cons_self _ _)
    have hc2 : '/' ∉ c := fun h => hc (List.mem_cons_of_mem _ h)
    simp [IsPathSeparator, ha]
    simpa [IsPathSeparator] using ih hc2

theorem takeWhile_no_sep (l : List Char) : '/' ∉ l.takeWhile (fun x => !IsPathSeparator x) := by
  intro h
  have := List.mem_takeWhile_imp h
  simp [IsPathSeparator] at this

theorem dropWhile_nil_or_abs (l : List Char) :
    l.dropWhile (fun x => !IsPathSeparator x) = [] ∨
      IsAbs (l.dropWhile (fun x => !IsPathSeparator x)) = true := by
  induction l with
  | nil => left; rfl
  | cons a l ih =>
    by_cases ha : a = '/'
    · right; subst ha; simp [List.dropWhile, IsPathSeparator, IsAbs]
    · have h1 : (a :: l).dropWhile (fun x => !IsPathSeparator x) =
          l.dropWhile (fun x => !IsPathSeparator x) := by
        rw [List.dropWhile_cons]
        simp [IsPathSeparator, ha]
      rw [h1]
      exact ih

theorem isAbs_iff (l : List Char) : IsAbs l = true ↔ ∃ t, l = '/' :: t := by
  cases l with
  | nil => simp [IsAbs]
  | cons a t => simp [IsAbs]

theorem isElem_dotdot : IsElem ['.', '.'] := by
  refine ⟨by simp, by decide⟩

theorem isElem_dot : IsElem ['.'] := by
  refine ⟨by simp, by decide⟩

/-! ### `joinElems` -/

theorem joinElems_cons_cons (c d : List Char) (cs : List (List Char)) :
    joinElems (c :: d :: cs) = c ++ '/' :: joinElems (d :: cs) := by
  simp [joinElems]

theorem joinElems_singleton (c : List Char) : joinElems [c] = c := by
  simp [joinElems]

theorem joinElems_concat (cs : List (List Char)) (c : List Char) :
    joinElems (cs ++ [c]) = if cs = [] then c else joinElems cs ++ '/' :: c := by
  induction cs with
  | nil => simp [joinElems]
  | cons d ds ih =>
    cases ds with
    | nil => simp [joinElems]
    | cons e es =>
      simp only [List.cons_append, joinElems_cons_cons] at ih ⊢
      rw [ih]
      simp

theorem joinElems_eq_nil_iff (cs : List (List Char)) (h : ∀ c ∈ cs, IsElem c) :
    joinElems cs = [] ↔ cs = [] := by
  cases cs with
  | nil => simp [joinElems]
  | cons c cs =>
    have hc := (h c (List.mem_cons_self _ _)).1
    by_cases hcs : cs = []
    · simp [joinElems, hcs, hc]
    · simp [joinElems, hcs, hc]

theorem joinElems_not_abs (cs : List (List Char)) (h : ∀ c ∈ cs, IsElem c) :
    IsAbs (joinElems cs) = false := by
  cases cs with
  | nil => rfl
  | cons c cs =>
    have hc := h c (List.mem_cons_self _ _)
    cases c with
    | nil => exact absurd rfl hc.1
    | cons a c =>
      have ha : a ≠ '/' := fun h => hc.2 (h ▸ List.mem_cons_self _ _)
      by_cases hcs : cs = [] <;> simp [joinElems, hcs, IsAbs, ha]

/-! ### `splitSep` and `comps` -/

theorem splitSep_ne_nil (l : List Char) : splitSep l ≠ [] := by
  cases l with
  | nil => simp [splitSep]
  | cons a l => by_cases ha : a = '/' <;> simp [splitSep, ha]

theorem splitSep_eq_cons (l : List Char) :
    splitSep l = (splitSep l).headD [] :: (splitSep l).tail := by
  cases h : splitSep l with
  | nil => exact absurd h (splitSep_ne_nil l)
  | cons a r => rfl

theorem splitSep_no_sep (l : List Char) : ∀ c ∈ splitSep l, '/' ∉ c := by
  induction l with
  | nil => simp [splitSep]
  | cons a l ih =>
    rw [splitSep_eq_cons l] at ih
    by_cases ha : a = '/'
    · intro c hc
      simp only [splitSep, ha, if_true, List.mem_cons] at hc
      rcases hc with rfl | hc
      · simp
      · rw [splitSep_eq_cons l] at hc
        exact ih c hc
    · intro c hc
      simp only [splitSep, ha, if_false, List.mem_cons] at hc
      rcases hc with rfl | hc
      · intro hmem
        rcases List.mem_cons.mp hmem with h | h
        · exact ha h.symm
        · exact ih _ (List.mem_cons_self _ _) h
      · exact ih c (List.mem_cons_of_mem _ hc)

theorem splitSep_elem_append (c t : List Char) (hc : '/' ∉ c) :
    splitSep (c ++ t) = (c ++ (splitSep t).headD []) :: (splitSep t).tail := by
  induction c with
  | nil => simpa using splitSep_eq_cons t
  | cons a c ih =>
    have ha : a ≠ '/' := fun h => hc (h ▸ List.mem_cons_self _ _)
    have hc2 : '/' ∉ c := fun h => hc (List.mem_cons_of_mem _ h)
    simp [splitSep, ha, ih hc2]

theorem splitSep_append_sep (a b : List Char) :
    splitSep (a ++ '/' :: b) = splitSep a ++ splitSep b := by
  induction a with
  | nil => simp [splitSep]
  | cons x a ih =>
    by_cases hx : x = '/'
    · simp [splitSep, hx, ih]
    · rw [splitSep_eq_cons a] at ih
      simp only [List.cons_append, splitSep, hx, if_false]
      change (x :: (splitSep (a ++ '/' :: b)).headD []) :: (splitSep (a ++ '/' :: b)).tail = _
      rw [ih]
      simp

theorem comps_nil : comps [] = [] := by
  simp [comps, splitSep]

theorem comps_sep (t : List Char) : comps ('/' :: t) = comps t := by
  simp [comps, splitSep]

theorem comps_elem_append (c t : List Char) (hc : IsElem c) (ht : t = [] ∨ IsAbs t = true) :
    comps (c ++ t) = c :: comps t := by
  have hne : c ≠ [] := hc.1
  rcases ht with rfl | ht
  · rw [comps, splitSep_elem_append c [] hc.2]
    simp [splitSep, comps, hne]
  · obtain ⟨t2, rfl⟩ := (isAbs_iff t).mp ht
    rw [comps, splitSep_elem_append c _ hc.2]
    simp [splitSep, comps, hne]

theorem comps_append_sep (a b : List Char) : comps (a ++ '/' :: b) = comps a ++ comps b := by
  simp [comps, splitSep_append_sep]

theorem comps_isElem (l : List Char) : ∀ c ∈ comps l, IsElem c := by
  intro c hc
  simp only [comps, List.mem_filter, decide_eq_true_eq] at hc
  exact ⟨hc.2, splitSep_no_sep l c hc.1⟩

theorem comps_joinElems (cs : List (List Char)) (h : ∀ c ∈ cs, IsElem c) :
    comps (joinElems cs) = cs := by
  induction cs with
  | nil => simp [joinElems, comps_nil]
  | cons c cs ih =>
    have hc := h c (List.mem_cons_self _ _)
    have hcs : ∀ d ∈ cs, IsElem d := fun d hd => h d (List.mem_cons_of_mem _ hd)
    cases cs with
    | nil =>
      rw [joinElems_singleton]
      simpa [comps_nil] using comps_elem_append c [] hc (Or.inl rfl)
    | cons d ds =>
      rw [joinElems_cons_cons, comps_elem_append c _ hc (Or.inr (by simp [IsAbs])), comps_sep,
        ih hcs]

/-! ### The backtracking loop of `Clean` -/

theorem backtrack_spec (buf : List Char) (dd w : Nat) (hdd : dd ≤ w)
    (hstop : w = dd ∨ buf.getD w '/' = '/') :
    ∀ n, (∀ i, w < i → i ≤ w + n → buf.getD i '/' ≠ '/') → backtrack buf dd (w + n) = w := by
  intro n
  induction n with
  | zero =>
    intro _
    cases w with
    | zero => rfl
    | succ m =>
      have hcond : ¬ (dd < m + 1 ∧ IsPathSeparator (buf.getD (m + 1) '/') = false) := by
        rintro ⟨h1, h2⟩
        rcases hstop with h | h
        · omega
        · rw [h] at h2
          simp [IsPathSeparator] at h2
      simp only [Nat.add_zero, backtrack, hcond, if_false]
  | succ n ih =>
    intro hall
    have hcond : dd < w + n + 1 ∧ IsPathSeparator (buf.getD (w + n + 1) '/') = false := by
      refine ⟨by omega, ?_⟩
      have := hall (w + n + 1) (by omega) (by omega)
      simpa [IsPathSeparator] using this
    have hrec := ih (fun i h1 h2 => hall i h1 (by omega))
    rw [show w + (n + 1) = (w + n) + 1 from rfl]
    simp only [backtrack, hcond, and_self, if_true]
    exact hrec

theorem getD_append_elem (pre c : List Char) (hc : '/' ∉ c) (i : Nat)
    (h1 : pre.length ≤ i) (h2 : i < pre.length + c.length) :
    (pre ++ c).getD i '/' ≠ '/' := by
  rw [List.getD_append_right _ _ _ _ h1]
  have hlt : i - pre.length < c.length := by omega
  rw [List.getD_eq_getElem _ _ hlt]
  intro h
  exact hc (h ▸ List.getElem_mem hlt)

/-- Backtracking over a last element that starts at `dotdot`. -/
theorem take_backtrack_at (pre c : List Char) (hc : IsElem c) :
    (pre ++ c).take (backtrack (pre ++ c) pre.length ((pre ++ c).length - 1)) = pre := by
  have hpos : 0 < c.length := List.length_pos.mpr hc.1
  have hw : (pre ++ c).length - 1 = pre.length + (c.length - 1) := by
    simp only [List.length_append]; omega
  rw [hw, backtrack_spec (pre ++ c) pre.length pre.length (le_refl _) (Or.inl rfl)]
  · simp
  · intro i h1 h2
    exact getD_append_elem pre c hc.2 i (by omega) (by omega)

/-- Backtracking over a last element that follows a separator. -/
theorem take_backtrack_sep (pre c : List Char) (dd : Nat) (hc : IsElem c)
    (hdd : dd ≤ pre.length) :
    (pre ++ '/' :: c).take (backtrack (pre ++ '/' :: c) dd ((pre ++ '/' :: c).length - 1)) =
      pre := by
  have hw : (pre ++ '/' :: c).length - 1 = pre.length + c.length := by
    simp only [List.length_append, List.length_cons]; omega
  have hsep : (pre ++ '/' :: c).getD pre.length '/' = '/' := by
    rw [List.getD_append_right _ _ _ _ (le_refl _)]
    simp
  rw [hw, backtrack_spec (pre ++ '/' :: c) dd pre.length hdd (Or.inr hsep)]
  · simp
  · intro i h1 h2
    have := getD_append_elem (pre ++ ['/']) c hc.2 i (by simp; omega) (by simp; omega)
    simpa using this

/-! ### `render` -/

theorem joinElems_append (a b : List (List Char)) (ha : a ≠ []) (hb : b ≠ []) :
    joinElems (a ++ b) = joinElems a ++ '/' :: joinElems b := by
  induction a with
  | nil => exact absurd rfl ha
  | cons c cs ih =>
    cases cs with
    | nil =>
      cases b with
      | nil => exact absurd rfl hb
      | cons d ds => simp [joinElems]
    | cons e es =>
      have := ih (by simp)
      simp only [List.cons_append, joinElems_cons_cons] at this ⊢
      rw [this]
      simp

theorem replicate_dotdot_isElem (k : Nat) : ∀ c ∈ List.replicate k ['.', '.'], IsElem c := by
  intro c hc
  rw [(List.mem_replicate.mp hc).2]
  exact isElem_dotdot

theorem prefixed_isElem (k : Nat) (st : List (List Char)) (hst : ∀ c ∈ st, IsElem c) :
    ∀ c ∈ List.replicate k ['.', '.'] ++ st, IsElem c := by
  intro c hc
  rcases List.mem_append.mp hc with h | h
  · exact replicate_dotdot_isElem k c h
  · exact hst c h

/-- Adding an element after the slash `Clean` inserts when the buffer is not
just the root. -/
theorem render_push (rooted : Bool) (k : Nat) (st : List (List Char)) (c : List Char)
    (hst : ∀ d ∈ st, IsElem d) :
    (if (rooted = true ∧ (render rooted k st).length ≠ 1) ∨
          (rooted = false ∧ (render rooted k st).length ≠ 0) then
        render rooted k st ++ ['/']
      else render rooted k st) ++ c = render rooted k (st ++ [c]) := by
  have hnil := joinElems_eq_nil_iff _ (prefixed_isElem k st hst)
  have hlen : (joinElems (List.replicate k ['.', '.'] ++ st)).length = 0 ↔
      List.replicate k ['.', '.'] ++ st = [] := by
    rw [List.length_eq_zero]; exact hnil
  unfold render
  rw [← List.append_assoc (List.replicate k ['.', '.']) st [c], joinElems_concat]
  by_cases hL : List.replicate k ['.', '.'] ++ st = []
  · have h0 := hlen.mpr hL
    cases rooted <;> simp [hL, h0, joinElems]
  · have h0 : (joinElems (List.replicate k ['.', '.'] ++ st)).length ≠ 0 := fun h => hL (hlen.mp h)
    cases rooted <;> simp [hL, h0]

theorem dotdotIndex_le (rooted : Bool) (k : Nat) (st : List (List Char)) :
    dotdotIndex rooted k ≤ (render rooted k st).length := by
  cases rooted
  · simp only [dotdotIndex, render]
    by_cases hk : List.replicate k ['.', '.'] = []
    · simp [hk, joinElems]
    · by_cases hs : st = []
      · simp [hs]
      · rw [joinElems_append _ _ hk hs]
        simp
  · simp [dotdotIndex, render]

theorem dotdotIndex_lt_iff (rooted : Bool) (k : Nat) (st : List (List Char))
    (hk : rooted = true → k = 0) (hst : ∀ d ∈ st, IsElem d) :
    dotdotIndex rooted k < (render rooted k st).length ↔ st ≠ [] := by
  by_cases hs : st = []
  · subst hs
    cases rooted
    · simp [dotdotIndex, render]
    · simp [dotdotIndex, render, hk rfl, joinElems]
  · have hne : joinElems st ≠ [] := fun h => hs ((joinElems_eq_nil_iff st hst).mp h)
    have hpos : 0 < (joinElems st).length := List.length_pos.mpr hne
    simp only [hs, ne_eq, not_false_eq_true, iff_true]
    cases k with
    | zero => cases rooted <;> simp [dotdotIndex, render, joinElems] <;> omega
    | succ n =>
      rw [render, joinElems_append _ _ (by simp [List.replicate_succ]) hs]
      cases rooted
      · simp [dotdotIndex]
      · exact absurd (hk rfl) (by simp)

/-- The `..` case of `Clean` with something to remove. -/
theorem render_pop (rooted : Bool) (k : Nat) (st : List (List Char)) (c : List Char)
    (hk : rooted = true → k = 0) (hc : IsElem c) :
    (render rooted k (st ++ [c])).take
        (backtrack (render rooted k (st ++ [c])) (dotdotIndex rooted k)
          ((render rooted k (st ++ [c])).length - 1)) =
      render rooted k st := by
  by_cases hL : List.replicate k ['.', '.'] ++ st = []
  · have hk0 : k = 0 := by
      cases k with
      | zero => rfl
      | succ n => simp [List.replicate_succ] at hL
    have hs : st = [] := by simpa [hk0] using hL
    subst hk0 hs
    cases rooted
    · simpa [render, dotdotIndex, joinElems] using take_backtrack_at [] c hc
    · simpa [render, dotdotIndex, joinElems] using take_backtrack_at ['/'] c hc
  · have hout : render rooted k (st ++ [c]) = render rooted k st ++ '/' :: c := by
      unfold render
      rw [← List.append_assoc (List.replicate k ['.', '.']) st [c], joinElems_concat]
      simp [hL]
    rw [hout]
    exact take_backtrack_sep _ c _ hc (dotdotIndex_le rooted k st)

/-- The `..` case of `Clean` on an unrooted path with nothing to remove. -/
theorem render_dotdot (k : Nat) :
    (if 0 < (render false k []).length then render false k [] ++ ['/'] else render false k []) ++
        ['.', '.'] = render false (k + 1) [] := by
  have hnil := joinElems_eq_nil_iff _ (replicate_dotdot_isElem k)
  simp only [render, List.append_nil, Bool.false_eq_true, if_false, List.nil_append]
  rw [List.replicate_succ', joinElems_concat]
  by_cases hk : List.replicate k ['.', '.'] = []
  · simp [hk, joinElems]
  · have : 0 < (joinElems (List.replicate k ['.', '.'])).length :=
      List.length_pos.mpr (fun h => hk (hnil.mp h))
    simp [hk, this]

/-! ### `Clean` as lexical processing of the elements -/

theorem takeWhile_eq_nil_imp (l : List Char)
    (h : l.takeWhile (fun x => !IsPathSeparator x) = []) : l = [] ∨ IsAbs l = true := by
  cases l with
  | nil => left; rfl
  | cons a l =>
    right
    by_cases ha : a = '/'
    · simp [IsAbs, ha]
    · have hb : (!IsPathSeparator a) = true := by simp [IsPathSeparator, ha]
      rw [List.takeWhile_cons] at h
      simp [hb] at h

theorem takeWhile_cons_not_sep (c : Char) (t : List Char) (hc : c ≠ '/') :
    (c :: t).takeWhile (fun x => !IsPathSeparator x) =
      c :: t.takeWhile (fun x => !IsPathSeparator x) := by
  have hb : (!IsPathSeparator c) = true := by simp [IsPathSeparator, hc]
  rw [List.takeWhile_cons]
  simp [hb]

theorem cleanLoop_spec (rooted : Bool) :
    ∀ (fuel : Nat) (rest : List Char) (k : Nat) (st : List (List Char)),
      rest.length ≤ fuel → (∀ c ∈ st, IsElem c) → (rooted = true → k = 0) →
      cleanLoop rooted fuel rest (render rooted k st) (dotdotIndex rooted k) =
        render rooted (List.foldl (cleanStep rooted) (k, st) (comps rest)).1
          (List.foldl (cleanStep rooted) (k, st) (comps rest)).2 := by
  intro fuel
  induction fuel with
  | zero =>
    intro rest k st hlen _ _
    have : rest = [] := List.length_eq_zero.mp (Nat.le_zero.mp hlen)
    subst this
    simp [cleanLoop, comps_nil]
  | succ fuel ih =>
    intro rest k st hlen hst hk
    cases rest with
    | nil => simp [cleanLoop, comps_nil]
    | cons c t =>
      have hlen1 : t.length ≤ fuel := by simpa using hlen
      by_cases h1 : IsPathSeparator c = true
      · have hc : c = '/' := by simpa [IsPathSeparator] using h1
        subst hc
        simp only [cleanLoop, h1, if_true]
        rw [comps_sep]
        exact ih t k st hlen1 hst hk
      · have hc : c ≠ '/' := by simpa [IsPathSeparator] using h1
        by_cases h2 : c = '.' ∧ (t = [] ∨ IsAbs t = true)
        · obtain ⟨rfl, ht⟩ := h2
          have h2 : ('.' : Char) = '.' ∧ (t = [] ∨ IsAbs t = true) := ⟨rfl, ht⟩
          simp only [cleanLoop, h1, h2, if_true, if_false]
          have hcomps : comps ('.' :: t) = ['.'] :: comps t :=
            comps_elem_append ['.'] t isElem_dot ht
          rw [hcomps, List.foldl_cons]
          have hstep : cleanStep rooted (k, st) ['.'] = (k, st) := by simp [cleanStep]
          rw [hstep]
          exact ih t k st hlen1 hst hk
        · by_cases h3 : c = '.' ∧ t.head? = some '.' ∧ (t.tail = [] ∨ IsAbs t.tail = true)
          · obtain ⟨rfl, hhead, htail⟩ := h3
            cases t with
            | nil => simp at hhead
            | cons d t2 =>
              simp only [List.head?_cons, Option.some.injEq] at hhead
              subst hhead
              simp only [List.tail_cons] at htail
              have hlen2 : t2.length ≤ fuel := by
                simp only [List.length_cons] at hlen1; omega
              have hcomps : comps ('.' :: '.' :: t2) = ['.', '.'] :: comps t2 :=
                comps_elem_append ['.', '.'] t2 isElem_dotdot htail
              rw [hcomps, List.foldl_cons]
              have h3' : ('.' : Char) = '.' ∧ ('.' :: t2).head? = some '.' ∧
                  (('.' :: t2).tail = [] ∨ IsAbs ('.' :: t2).tail = true) := ⟨rfl, rfl, htail⟩
              simp only [cleanLoop, h1, h2, h3', if_true, if_false]
              by_cases hs : st = []
              · subst hs
                have hlt : ¬ dotdotIndex rooted k < (render rooted k []).length := by
                  rw [dotdotIndex_lt_iff rooted k [] hk hst]; simp
                simp only [hlt, if_false]
                cases rooted with
                | true =>
                  have hstep : cleanStep true (k, []) ['.', '.'] = (k, []) := by
                    simp [cleanStep]
                  rw [hstep]
                  simp only [Bool.true_eq_false, if_false, List.tail_cons]
                  exact ih t2 k [] hlen2 hst hk
                | false =>
                  have hstep : cleanStep false (k, []) ['.', '.'] = (k + 1, []) := by
                    simp [cleanStep]
                  rw [hstep]
                  simp only [if_true, List.tail_cons]
                  rw [render_dotdot k]
                  have hdd : (render false (k + 1) []).length = dotdotIndex false (k + 1) := by
                    simp [render, dotdotIndex]
                  rw [hdd]
                  exact ih t2 (k + 1) [] hlen2 hst (by simp)
              · have hlt : dotdotIndex rooted k < (render rooted k st).length :=
                  (dotdotIndex_lt_iff rooted k st hk hst).mpr hs
                simp only [hlt, if_true, List.tail_cons]
                have hstep : cleanStep rooted (k, st) ['.', '.'] = (k, st.dropLast) := by
                  simp [cleanStep, hs]
                rw [hstep]
                obtain ⟨st1, cl, rfl⟩ : ∃ st1 cl, st = st1 ++ [cl] :=
                  ⟨st.dropLast, st.getLast hs, (List.dropLast_append_getLast hs).symm⟩
                have hcl : IsElem cl := hst cl (by simp)
                have hst1 : ∀ d ∈ st1, IsElem d := fun d hd => hst d (by simp [hd])
                rw [render_pop rooted k st1 cl hk hcl, List.dropLast_concat]
                exact ih t2 k st1 hlen2 hst1 hk
          · simp only [cleanLoop, h1, h2, h3, if_false]
            have hsplit : c :: t = (c :: t).takeWhile (fun x => !IsPathSeparator x) ++
                (c :: t).dropWhile (fun x => !IsPathSeparator x) :=
              (List.takeWhile_append_dropWhile _ _).symm
            have htw := takeWhile_cons_not_sep c t hc
            have hel : IsElem ((c :: t).takeWhile (fun x => !IsPathSeparator x)) :=
              ⟨by rw [htw]; simp, takeWhile_no_sep _⟩
            have hdw := dropWhile_nil_or_abs (c :: t)
            have hcomps : comps (c :: t) =
                (c :: t).takeWhile (fun x => !IsPathSeparator x) ::
                  comps ((c :: t).dropWhile (fun x => !IsPathSeparator x)) := by
              conv_lhs => rw [hsplit]
              exact comps_elem_append _ _ hel hdw
            have hnd : (c :: t).takeWhile (fun x => !IsPathSeparator x) ≠ ['.'] := by
              intro h
              rw [htw] at h
              simp only [List.cons.injEq] at h
              exact h2 ⟨h.1, takeWhile_eq_nil_imp t h.2⟩
            have hndd : (c :: t).takeWhile (fun x => !IsPathSeparator x) ≠ ['.', '.'] := by
              intro h
              rw [htw] at h
              simp only [List.cons.injEq] at h
              obtain ⟨hc1, ht⟩ := h
              cases t with
              | nil => simp at ht
              | cons d t2 =>
                by_cases hd : d = '/'
                · subst hd
                  rw [List.takeWhile_cons] at ht
                  simp [IsPathSeparator] at ht
                · rw [takeWhile_cons_not_sep d t2 hd] at ht
                  simp only [List.cons.injEq] at ht
                  exact h3 ⟨hc1, by simp [ht.1], by simpa using takeWhile_eq_nil_imp t2 ht.2⟩
            have hstep : cleanStep rooted (k, st)
                ((c :: t).takeWhile (fun x => !IsPathSeparator x)) =
                (k, st ++ [(c :: t).takeWhile (fun x => !IsPathSeparator x)]) := by
              simp [cleanStep, hnd, hndd]
            rw [hcomps, List.foldl_cons, hstep, render_push rooted k st _ hst]
            have hlen3 : ((c :: t).dropWhile (fun x => !IsPathSeparator x)).length ≤ fuel := by
              have h := congrArg List.length hsplit
              rw [List.length_append, htw] at h
              simp only [List.length_cons] at h hlen
              omega
            refine ih _ k _ hlen3 ?_ hk
            intro d hd
            rcases List.mem_append.mp hd with h | h
            · exact hst d h
            · rw [List.mem_singleton.mp h]; exact hel

theorem cleanStep_foldl_inv (rooted : Bool) (cs : List (List Char)) (hcs : ∀ c ∈ cs, IsElem c) :
    ∀ (s : Nat × List (List Char)), (∀ d ∈ s.2, IsNormal d) → (rooted = true → s.1 = 0) →
      (∀ d ∈ (List.foldl (cleanStep rooted) s cs).2, IsNormal d) ∧
        (rooted = true → (List.foldl (cleanStep rooted) s cs).1 = 0) := by
  induction cs with
  | nil => intro s h1 h2; exact ⟨h1, h2⟩
  | cons c cs ih =>
    intro s h1 h2
    rw [List.foldl_cons]
    have hc := hcs c (List.mem_cons_self _ _)
    apply ih (fun d hd => hcs d (List.mem_cons_of_mem _ hd))
    · intro d hd
      unfold cleanStep at hd
      split at hd
      · exact h1 d hd
      · split at hd
        · split at hd
          · exact h1 d (List.mem_of_mem_dropLast hd)
          · split at hd
            · exact h1 d hd
            · exact h1 d hd
        · rcases List.mem_append.mp hd with h | h
          · exact h1 d h
          · rw [List.mem_singleton.mp h]
            exact ⟨hc, by assumption, by assumption⟩
    · intro hr
      have := h2 hr
      unfold cleanStep
      split
      · exact this
      · split
        · split
          · exact this
          · simp [hr, this]
        · exact this

theorem cleanStep_foldl_push (rooted : Bool) (cs : List (List Char))
    (hcs : ∀ c ∈ cs, IsNormal c) (k : Nat) (st : List (List Char)) :
    List.foldl (cleanStep rooted) (k, st) cs = (k, st ++ cs) := by
  induction cs generalizing st with
  | nil => simp
  | cons c cs ih =>
    have hc := hcs c (List.mem_cons_self _ _)
    rw [List.foldl_cons]
    have hstep : cleanStep rooted (k, st) c = (k, st ++ [c]) := by
      simp [cleanStep, hc.2.1, hc.2.2]
    rw [hstep, ih (fun d hd => hcs d (List.mem_cons_of_mem _ hd))]
    simp

theorem cleanStep_foldl_pop (rooted : Bool) (k : Nat) (st st2 : List (List Char)) :
    List.foldl (cleanStep rooted) (k, st ++ st2) (List.replicate st2.length ['.', '.']) =
      (k, st) := by
  induction st2 using List.reverseRecOn with
  | nil => simp
  | append_singleton st3 c ih =>
    rw [List.length_append, List.length_singleton, List.replicate_succ, List.foldl_cons]
    have hstep : cleanStep rooted (k, st ++ (st3 ++ [c])) ['.', '.'] = (k, st ++ st3) := by
      have hne : st ++ (st3 ++ [c]) ≠ [] := by simp
      have hdl : (st ++ (st3 ++ [c])).dropLast = st ++ st3 := by
        rw [← List.append_assoc, List.dropLast_concat]
      simp [cleanStep, hdl]
    rw [hstep, ih]

theorem Clean_rooted (t : List Char) :
    Clean ('/' :: t) =
      '/' :: joinElems (List.foldl (cleanStep true) (0, []) (comps t)).2 := by
  have hspec := cleanLoop_spec true t.length t 0 [] (le_refl _) (by simp) (fun _ => rfl)
  have hk := (cleanStep_foldl_inv true (comps t) (comps_isElem t) (0, []) (by simp)
    (fun _ => rfl)).2 rfl
  have h0 : render true 0 [] = ['/'] := by simp [render, joinElems]
  have h1 : dotdotIndex true 0 = 1 := by simp [dotdotIndex]
  rw [h0, h1] at hspec
  simp only [Clean, IsPathSeparator, beq_self_eq_true, if_true]
  rw [hspec, hk]
  simp [render]

theorem Clean_unrooted (c : Char) (t : List Char) (hc : c ≠ '/') :
    Clean (c :: t) =
      if joinElems (List.replicate (List.foldl (cleanStep false) (0, []) (comps (c :: t))).1
            ['.', '.'] ++ (List.foldl (cleanStep false) (0, []) (comps (c :: t))).2) = [] then ['.']
      else joinElems (List.replicate (List.foldl (cleanStep false) (0, []) (comps (c :: t))).1
            ['.', '.'] ++ (List.foldl (cleanStep false) (0, []) (comps (c :: t))).2) := by
  have hspec := cleanLoop_spec false (c :: t).length (c :: t) 0 [] (le_refl _) (by simp)
    (fun h => by simp at h)
  have h0 : render false 0 [] = [] := by simp [render, joinElems]
  have h1 : dotdotIndex false 0 = 0 := by simp [dotdotIndex, joinElems]
  rw [h0, h1] at hspec
  have hsep : IsPathSeparator c = false := by simp [IsPathSeparator, hc]
  simp only [Clean, hsep, Bool.false_eq_true, if_false]
  rw [hspec]
  simp [render]

/-- The shape of every cleaned path: a root slash followed by elements other
than `.` and `..` for a rooted path, a non-empty list of elements otherwise. -/
theorem Clean_form (path : List Char) :
    ∃ cs, (∀ c ∈ cs, IsElem c) ∧
      ((IsAbs path = true ∧ (∀ c ∈ cs, IsNormal c) ∧ Clean path = '/' :: joinElems cs) ∨
        (IsAbs path = false ∧ cs ≠ [] ∧ Clean path = joinElems cs)) := by
  cases path with
  | nil => exact ⟨[['.']], by simpa using isElem_dot, Or.inr ⟨rfl, by simp, rfl⟩⟩
  | cons c t =>
    by_cases hc : c = '/'
    · subst hc
      have hinv := (cleanStep_foldl_inv true (comps t) (comps_isElem t) (0, []) (by simp)
        (fun _ => rfl)).1
      exact ⟨_, fun d hd => (hinv d hd).1, Or.inl ⟨rfl, hinv, Clean_rooted t⟩⟩
    · have hinv := (cleanStep_foldl_inv false (comps (c :: t)) (comps_isElem _) (0, [])
        (by simp) (fun h => by simp at h)).1
      have hel := prefixed_isElem (List.foldl (cleanStep false) (0, []) (comps (c :: t))).1 _
        (fun d hd => (hinv d hd).1)
      have hna : IsAbs (c :: t) = false := by simp [IsAbs, hc]
      rw [← hna]
      by_cases hnil : joinElems (List.replicate (List.foldl (cleanStep false) (0, [])
          (comps (c :: t))).1 ['.', '.'] ++
          (List.foldl (cleanStep false) (0, []) (comps (c :: t))).2) = []
      · refine ⟨[['.']], by simpa using isElem_dot, Or.inr ⟨rfl, by simp, ?_⟩⟩
        rw [Clean_unrooted c t hc, if_pos hnil]
        rfl
      · refine ⟨_, hel, Or.inr ⟨rfl, ?_, ?_⟩⟩
        · intro h
          rw [h] at hnil
          exact hnil rfl
        · rw [Clean_unrooted c t hc, if_neg hnil]

/-! ### The element-matching loop of `Rel` -/

theorem joinElems_cons (b : List Char) (bs : List (List Char)) :
    joinElems (b :: bs) = b ++ (if bs = [] then [] else '/' :: joinElems bs) := by
  by_cases h : bs = [] <;> simp [joinElems, h]

theorem joinElems_cons_tail (bs : List (List Char)) :
    (if bs = [] then ([] : List Char) else '/' :: joinElems bs) = [] ∨
      IsAbs (if bs = [] then ([] : List Char) else '/' :: joinElems bs) = true := by
  by_cases h : bs = [] <;> simp [h, IsAbs]

theorem joinElems_cons_drop (bs : List (List Char)) :
    (if bs = [] then ([] : List Char) else '/' :: joinElems bs).drop 1 = joinElems bs := by
  by_cases h : bs = []
  · simp [h, joinElems]
  · simp [h]

theorem stripCommon_spec (bs ts : List (List Char)) :
    ∃ common, bs = common ++ (stripCommon bs ts).1 ∧ ts = common ++ (stripCommon bs ts).2 := by
  induction bs generalizing ts with
  | nil => exact ⟨[], by simp [stripCommon]⟩
  | cons b bs ih =>
    cases ts with
    | nil => exact ⟨[], by simp [stripCommon]⟩
    | cons t ts =>
      by_cases h : b = t
      · obtain ⟨common, h1, h2⟩ := ih ts
        refine ⟨b :: common, ?_, ?_⟩
        · simp only [stripCommon, h, if_true, List.cons_append]
          rw [← h1]
        · simp only [stripCommon, h, if_true, List.cons_append]
          rw [← h2]
      · exact ⟨[], by simp [stripCommon, h]⟩

theorem relLoop_spec (bs : List (List Char)) (hbs : ∀ c ∈ bs, IsElem c) :
    ∀ (ts : List (List Char)) (fuel : Nat), (∀ c ∈ ts, IsElem c) →
      (joinElems bs).length < fuel →
      relLoop fuel (joinElems bs) (joinElems ts) =
        ⟨(stripCommon bs ts).1.headD [],
          joinElems (stripCommon bs ts).1, joinElems (stripCommon bs ts).2⟩ := by
  induction bs with
  | nil =>
    intro ts fuel _ hfuel
    cases fuel with
    | zero => simp at hfuel
    | succ f => simp [relLoop, joinElems, stripCommon]
  | cons b bs ih =>
    intro ts fuel hts hfuel
    have hb := hbs b (List.mem_cons_self _ _)
    have hbs' : ∀ c ∈ bs, IsElem c := fun c hc => hbs c (List.mem_cons_of_mem _ hc)
    have hbne : joinElems (b :: bs) ≠ [] := by
      rw [joinElems_cons]; simp [hb.1]
    have hbt : (joinElems (b :: bs)).takeWhile (fun x => !IsPathSeparator x) = b := by
      rw [joinElems_cons]
      exact takeWhile_elem_append b _ hb.2 (joinElems_cons_tail bs)
    have hbd : ((joinElems (b :: bs)).dropWhile (fun x => !IsPathSeparator x)).drop 1 =
        joinElems bs := by
      rw [joinElems_cons, dropWhile_elem_append b _ hb.2 (joinElems_cons_tail bs)]
      exact joinElems_cons_drop bs
    cases fuel with
    | zero => simp at hfuel
    | succ f =>
      cases ts with
      | nil =>
        have hne : ([] : List Char) ≠ b := fun h => hb.1 h.symm
        rw [relLoop, if_pos hbne]
        simp only [hbt]
        have htw : (joinElems []).takeWhile (fun x => !IsPathSeparator x) = [] := by
          simp [joinElems]
        rw [htw, if_pos hne]
        simp [stripCommon]
      | cons t ts =>
        have ht := hts t (List.mem_cons_self _ _)
        have hts' : ∀ c ∈ ts, IsElem c := fun c hc => hts c (List.mem_cons_of_mem _ hc)
        have htt : (joinElems (t :: ts)).takeWhile (fun x => !IsPathSeparator x) = t := by
          rw [joinElems_cons]
          exact takeWhile_elem_append t _ ht.2 (joinElems_cons_tail ts)
        have htd : ((joinElems (t :: ts)).dropWhile (fun x => !IsPathSeparator x)).drop 1 =
            joinElems ts := by
          rw [joinElems_cons, dropWhile_elem_append t _ ht.2 (joinElems_cons_tail ts)]
          exact joinElems_cons_drop ts
        rw [relLoop, if_pos hbne]
        simp only [hbt, htt, hbd, htd]
        by_cases heq : b = t
        · subst heq
          have hlen : (joinElems bs).length < f := by
            have hpos : 0 < b.length := List.length_pos.mpr hb.1
            rw [joinElems_cons] at hfuel
            by_cases hn : bs = []
            · simp [hn, joinElems] at hfuel ⊢
              omega
            · simp [hn] at hfuel
              omega
          rw [if_neg (by simp)]
          simp only [stripCommon, if_true]
          exact ih hbs' ts f hts' hlen
        · have hne : t ≠ b := fun h => heq h.symm
          rw [if_pos hne]
          simp [stripCommon, heq]

theorem dotdots_eq (n : Nat) : dotdots n = joinElems (List.replicate (n + 1) ['.', '.']) := by
  induction n with
  | zero => simp [dotdots, joinElems]
  | succ n ih =>
    rw [dotdots, ih, List.replicate_succ' (n + 1), joinElems_concat]
    simp [List.replicate_succ]

theorem count_sep_joinElems (cs : List (List Char)) (hcs : ∀ c ∈ cs, IsElem c) :
    (joinElems cs).count '/' = cs.length - 1 := by
  induction cs with
  | nil => simp [joinElems]
  | cons c cs ih =>
    have hc := hcs c (List.mem_cons_self _ _)
    have h0 : c.count '/' = 0 := List.count_eq_zero_of_not_mem hc.2
    have ih' := ih (fun d hd => hcs d (List.mem_cons_of_mem _ hd))
    rw [joinElems_cons]
    by_cases hn : cs = []
    · simp [hn, h0]
    · have hpos : 0 < cs.length := List.length_pos.mpr hn
      simp [hn, h0, List.count_cons, ih']
      omega

theorem relLoop_rooted (fuel : Nat) (x y : List Char) :
    relLoop (fuel + 1) ('/' :: x) ('/' :: y) = relLoop fuel x y := by
  rw [relLoop]
  simp [IsPathSeparator]

theorem Join_pair (d e : List Char) (hd : d ≠ []) : Join [d, e] = Clean (d ++ '/' :: e) := by
  simp [Join, hd, stringsJoin, List.intercalate]

/-! ### The characters of cleaned and relative paths -/

theorem mem_joinElems_of_mem (cs : List (List Char)) (c : List Char) (x : Char)
    (hc : c ∈ cs) (hx : x ∈ c) : x ∈ joinElems cs := by
  induction cs with
  | nil => cases hc
  | cons d ds ih =>
    rw [joinElems_cons]
    rcases List.mem_cons.mp hc with rfl | h
    · exact List.mem_append_left _ hx
    · have hne : ds ≠ [] := List.ne_nil_of_mem h
      rw [if_neg hne]
      exact List.mem_append_right _ (List.mem_cons_of_mem _ (ih h))

theorem mem_joinElems (cs : List (List Char)) (x : Char) (hx : x ∈ joinElems cs) :
    x = '/' ∨ ∃ c ∈ cs, x ∈ c := by
  induction cs with
  | nil => simp [joinElems] at hx
  | cons d ds ih =>
    rw [joinElems_cons] at hx
    rcases List.mem_append.mp hx with h | h
    · exact Or.inr ⟨d, List.mem_cons_self _ _, h⟩
    · by_cases hne : ds = []
      · simp [hne] at h
      · rw [if_neg hne] at h
        rcases List.mem_cons.mp h with h | h
        · exact Or.inl h
        · rcases ih h with h | ⟨c, hc, hxc⟩
          · exact Or.inl h
          · exact Or.inr ⟨c, List.mem_cons_of_mem _ hc, hxc⟩

theorem splitSep_chars (path : List Char) : ∀ c ∈ splitSep path, ∀ x ∈ c, x ∈ path := by
  induction path with
  | nil => simp [splitSep]
  | cons a l ih =>
    rw [splitSep_eq_cons l] at ih
    intro c hc x hx
    by_cases ha : a = '/'
    · simp only [splitSep, ha, if_true, List.mem_cons] at hc
      rcases hc with rfl | hc
      · cases hx
      · rw [splitSep_eq_cons l] at hc
        exact List.mem_cons_of_mem _ (ih c hc x hx)
    · simp only [splitSep, ha, if_false, List.mem_cons] at hc
      rcases hc with rfl | hc
      · rcases List.mem_cons.mp hx with h | h
        · rw [h]; exact List.mem_cons_self _ _
        · exact List.mem_cons_of_mem _ (ih _ (List.mem_cons_self _ _) x h)
      · exact List.mem_cons_of_mem _ (ih c (List.mem_cons_of_mem _ hc) x hx)

theorem comps_chars (path : List Char) (c : List Char) (hc : c ∈ comps path) :
    ∀ x ∈ c, x ∈ path :=
  splitSep_chars path c (List.mem_filter.mp hc).1

theorem cleanStep_foldl_mem (rooted : Bool) (cs : List (List Char)) :
    ∀ (s : Nat × List (List Char)),
      ∀ d ∈ (List.foldl (cleanStep rooted) s cs).2, d ∈ s.2 ∨ d ∈ cs := by
  induction cs with
  | nil => intro s d hd; exact Or.inl hd
  | cons c cs ih =>
    intro s d hd
    rw [List.foldl_cons] at hd
    rcases ih _ d hd with h | h
    · unfold cleanStep at h
      split at h
      · exact Or.inl h
      · split at h
        · split at h
          · exact Or.inl (List.mem_of_mem_dropLast h)
          · split at h
            · exact Or.inl h
            · exact Or.inl h
        · rcases List.mem_append.mp h with h | h
          · exact Or.inl h
          · exact Or.inr (by rw [List.mem_singleton.mp h]; exact List.mem_cons_self _ _)
    · exact Or.inr (List.mem_cons_of_mem _ h)

/-- `Clean` writes no character other than `.`, `/` and those of its argument. -/
theorem Clean_chars (path : List Char) : ∀ x ∈ Clean path, x = '.' ∨ x = '/' ∨ x ∈ path := by
  intro x hx
  have key : ∀ (rooted : Bool) (p : List Char) (k : Nat),
      x ∈ joinElems (List.replicate k ['.', '.'] ++
        (List.foldl (cleanStep rooted) (0, []) (comps p)).2) → x = '.' ∨ x = '/' ∨ x ∈ p := by
    intro rooted p k h
    rcases mem_joinElems _ x h with h | ⟨c, hc, hxc⟩
    · exact Or.inr (Or.inl h)
    · rcases List.mem_append.mp hc with hc | hc
      · rw [(List.mem_replicate.mp hc).2] at hxc
        left
        simpa using hxc
      · rcases cleanStep_foldl_mem rooted (comps p) (0, []) c hc with h | h
        · cases h
        · exact Or.inr (Or.inr (comps_chars p c h x hxc))
  cases path with
  | nil => left; simpa [Clean] using hx
  | cons c t =>
    by_cases hc : c = '/'
    · subst hc
      rw [Clean_rooted] at hx
      rcases List.mem_cons.mp hx with h | h
      · exact Or.inr (Or.inl h)
      · rcases key true t 0 (by simpa using h) with h | h | h
        · exact Or.inl h
        · exact Or.inr (Or.inl h)
        · exact Or.inr (Or.inr (List.mem_cons_of_mem _ h))
    · rw [Clean_unrooted c t hc] at hx
      split at hx
      · left; simpa using hx
      · exact key false (c :: t) _ hx

theorem Join_pair_chars (a b : List Char) :
    ∀ x ∈ Join [a, b], x = '.' ∨ x = '/' ∨ x ∈ a ∨ x ∈ b := by
  intro x hx
  by_cases ha : a = []
  · subst ha
    by_cases hb : b = []
    · subst hb
      simp [Join] at hx
    · have hJ : Join [[], b] = Clean b := by
        simp [Join, hb, stringsJoin, List.intercalate]
      rw [hJ] at hx
      rcases Clean_chars b x hx with h | h | h
      · exact Or.inl h
      · exact Or.inr (Or.inl h)
      · exact Or.inr (Or.inr (Or.inr h))
  · rw [Join_pair a b ha] at hx
    rcases Clean_chars _ x hx with h | h | h
    · exact Or.inl h
    · exact Or.inr (Or.inl h)
    · rcases List.mem_append.mp h with h | h
      · exact Or.inr (Or.inr (Or.inl h))
      · rcases List.mem_cons.mp h with h | h
        · exact Or.inr (Or.inl h)
        · exact Or.inr (Or.inr (Or.inr h))

/-! ### `Rel` on cleaned paths -/

theorem stripCommon_isElem (bs ts : List (List Char)) (P : List Char → Prop)
    (hbs : ∀ c ∈ bs, P c) (hts : ∀ c ∈ ts, P c) :
    (∀ c ∈ (stripCommon bs ts).1, P c) ∧ (∀ c ∈ (stripCommon bs ts).2, P c) := by
  obtain ⟨common, h1, h2⟩ := stripCommon_spec bs ts
  constructor
  · intro c hc
    exact hbs c (by rw [h1]; exact List.mem_append_right _ hc)
  · intro c hc
    exact hts c (by rw [h2]; exact List.mem_append_right _ hc)

/-- The result `Rel` builds from the position where the elements first differ. -/
theorem rel_result (e : List Char) (bs2 ts2 : List (List Char)) (err : Err)
    (hbs : ∀ c ∈ bs2, IsElem c) (hts : ∀ c ∈ ts2, IsElem c) (he : e ≠ ['.', '.']) :
    (if e = ['.', '.'] then Except.error err
      else if joinElems bs2 ≠ [] then
        Except.ok (dotdots ((joinElems bs2).count '/') ++
          (if joinElems ts2 ≠ [] then '/' :: joinElems ts2 else []))
      else Except.ok (joinElems ts2)) =
      Except.ok (joinElems (List.replicate bs2.length ['.', '.'] ++ ts2)) := by
  rw [if_neg he]
  by_cases hb : bs2 = []
  · subst hb
    simp [joinElems]
  · have hbne : joinElems bs2 ≠ [] := fun h => hb ((joinElems_eq_nil_iff bs2 hbs).mp h)
    have hpos : 0 < bs2.length := List.length_pos.mpr hb
    have hrep : List.replicate bs2.length ['.', '.'] ≠ [] := by
      intro h
      have := congrArg List.length h
      simp only [List.length_replicate, List.length_nil] at this
      omega
    rw [if_pos hbne, count_sep_joinElems bs2 hbs, dotdots_eq,
      show bs2.length - 1 + 1 = bs2.length by omega]
    by_cases ht : ts2 = []
    · subst ht
      simp [joinElems]
    · have htne : joinElems ts2 ≠ [] := fun h => ht ((joinElems_eq_nil_iff ts2 hts).mp h)
      rw [if_pos htne, joinElems_append _ _ hrep ht]

theorem joinElems_injective (as bs : List (List Char)) (ha : ∀ c ∈ as, IsElem c)
    (hb : ∀ c ∈ bs, IsElem c) (h : joinElems as = joinElems bs) : as = bs := by
  rw [← comps_joinElems as ha, ← comps_joinElems bs hb, h]

/-- `Rel` between two rooted paths, in terms of the elements of the cleaned paths. -/
theorem Rel_rooted (basepath targpath : List Char) (bs ts : List (List Char))
    (hbs : ∀ c ∈ bs, IsNormal c) (hts : ∀ c ∈ ts, IsNormal c)
    (hb : Clean basepath = '/' :: joinElems bs) (ht : Clean targpath = '/' :: joinElems ts) :
    Rel basepath targpath =
      .ok (if ts = bs then ['.']
        else joinElems (List.replicate (stripCommon bs ts).1.length ['.', '.'] ++
          (stripCommon bs ts).2)) := by
  have hbe : ∀ c ∈ bs, IsElem c := fun c hc => (hbs c hc).1
  have hte : ∀ c ∈ ts, IsElem c := fun c hc => (hts c hc).1
  unfold Rel
  simp only [hb, ht]
  by_cases heq : ts = bs
  · simp [heq]
  · have hne : ¬ ('/' :: joinElems ts = '/' :: joinElems bs) := by
      intro h
      exact heq (joinElems_injective ts bs hte hbe (List.cons.inj h).2)
    have hdot : ¬ ('/' :: joinElems bs = ['.']) := by simp
    rw [if_neg hne, if_neg heq]
    simp only [hdot, if_false, IsAbs, beq_self_eq_true, ne_eq, not_true_eq_false]
    rw [show ('/' :: joinElems bs).length + 1 = ((joinElems bs).length + 1) + 1 from rfl,
      relLoop_rooted, relLoop_spec bs hbe ts _ hte (Nat.lt_succ_self _)]
    have hsc := stripCommon_isElem bs ts IsNormal hbs hts
    apply rel_result
    · exact fun c hc => (hsc.1 c hc).1
    · exact fun c hc => (hsc.2 c hc).1
    · cases hs : (stripCommon bs ts).1 with
      | nil => simp
      | cons x xs =>
        have := hsc.1 x (by rw [hs]; exact List.mem_cons_self _ _)
        simpa using this.2.2

theorem stripCommon_ne_nil (bs ts : List (List Char)) (h : ts ≠ bs) :
    List.replicate (stripCommon bs ts).1.length ['.', '.'] ++ (stripCommon bs ts).2 ≠ [] := by
  intro hnil
  obtain ⟨common, h1, h2⟩ := stripCommon_spec bs ts
  have h3 := List.append_eq_nil.mp hnil
  have h4 : (stripCommon bs ts).1 = [] := by
    have := congrArg List.length h3.1
    simpa using this
  rw [h4] at h1
  rw [h3.2] at h2
  exact h (by rw [h1, h2])

theorem rel_elems_chars (targ : List Char) (bs ts : List (List Char))
    (htarg : ∀ x ∈ joinElems ts, x ∈ targ) :
    ∀ c ∈ List.replicate (stripCommon bs ts).1.length ['.', '.'] ++ (stripCommon bs ts).2,
      ∀ x ∈ c, x = '.' ∨ x ∈ targ := by
  intro c hc x hx
  rcases List.mem_append.mp hc with hc | hc
  · rw [(List.mem_replicate.mp hc).2] at hx
    left
    simpa using hx
  · right
    obtain ⟨common, _, h2⟩ := stripCommon_spec bs ts
    have hmem : c ∈ ts := by rw [h2]; exact List.mem_append_right _ hc
    exact htarg x (mem_joinElems_of_mem ts c x hmem hx)

theorem Rel_unrooted_form (basepath targpath E : List Char) (bs ts : List (List Char))
    (hbs : ∀ c ∈ bs, IsElem c) (hts : ∀ c ∈ ts, IsElem c) (htne : ts ≠ [])
    (hb : Clean basepath = joinElems bs) (ht : Clean targpath = joinElems ts)
    (h : Rel basepath targpath = .ok E) :
    E = ['.'] ∨ ∃ cs, (∀ c ∈ cs, IsElem c) ∧ cs ≠ [] ∧
      (∀ c ∈ cs, ∀ x ∈ c, x = '.' ∨ x ∈ Clean targpath) ∧ E = joinElems cs := by
  unfold Rel at h
  simp only [hb, ht] at h
  by_cases heq : joinElems ts = joinElems bs
  · rw [if_pos heq] at h
    left
    exact (Except.ok.inj h).symm
  · rw [if_neg heq] at h
    obtain ⟨bs1, hbs1, hbase, hne1⟩ : ∃ bs1, (∀ c ∈ bs1, IsElem c) ∧
        (if joinElems bs = ['.'] then [] else joinElems bs) = joinElems bs1 ∧ ts ≠ bs1 := by
      by_cases hd : joinElems bs = ['.']
      · exact ⟨[], by simp, by simp [hd, joinElems], htne⟩
      · exact ⟨bs, hbs, by simp [hd], fun h => heq (by rw [h])⟩
    rw [hbase] at h
    have hna : ¬ (IsAbs (joinElems bs1) ≠ IsAbs (joinElems ts)) := by
      rw [joinElems_not_abs bs1 hbs1, joinElems_not_abs ts hts]
      simp
    rw [if_neg hna, relLoop_spec bs1 hbs1 ts _ hts (Nat.lt_succ_self _)] at h
    have hsc := stripCommon_isElem bs1 ts IsElem hbs1 hts
    right
    refine ⟨List.replicate (stripCommon bs1 ts).1.length ['.', '.'] ++ (stripCommon bs1 ts).2,
      prefixed_isElem _ _ hsc.2, stripCommon_ne_nil bs1 ts hne1,
      rel_elems_chars _ bs1 ts (by rw [ht]; exact fun x hx => hx), ?_⟩
    simp only at h
    by_cases hel : (stripCommon bs1 ts).1.headD [] = ['.', '.']
    · rw [if_pos hel] at h
      cases h
    · rw [rel_result _ _ _ (Err.relCantMake targpath basepath) hsc.1 hsc.2 hel] at h
      exact (Except.ok.inj h).symm

theorem Rel_mixed (basepath targpath : List Char)
    (h : IsAbs (Clean basepath) ≠ IsAbs (Clean targpath)) (hdot : Clean basepath ≠ ['.']) :
    Rel basepath targpath = .error (.relCantMake targpath basepath) := by
  unfold Rel
  have hne : ¬ (Clean targpath = Clean basepath) := fun he => h (by rw [he])
  simp only [hne, hdot, if_false]
  rw [if_pos h]

theorem Clean_isAbs (path : List Char) : IsAbs (Clean path) = IsAbs path := by
  obtain ⟨cs, hcs, h | h⟩ := Clean_form path
  · rw [h.2.2, h.1]; rfl
  · rw [h.2.2, h.1]; exact joinElems_not_abs cs hcs

/-- Every path `Rel` returns is `.` or a non-empty sequence of elements, each
of them `..` or an element of the cleaned target. -/
theorem Rel_ok_form (basepath targpath E : List Char) (h : Rel basepath targpath = .ok E) :
    E = ['.'] ∨ ∃ cs, (∀ c ∈ cs, IsElem c) ∧ cs ≠ [] ∧
      (∀ c ∈ cs, ∀ x ∈ c, x = '.' ∨ x ∈ Clean targpath) ∧ E = joinElems cs := by
  obtain ⟨bs, hbs, hb | hb⟩ := Clean_form basepath
  · obtain ⟨ts, hts, ht | ht⟩ := Clean_form targpath
    · rw [Rel_rooted basepath targpath bs ts hb.2.1 ht.2.1 hb.2.2 ht.2.2] at h
      have hE := Except.ok.inj h
      by_cases heq : ts = bs
      · left; rw [← hE, if_pos heq]
      · right
        rw [if_neg heq] at hE
        have hsc := stripCommon_isElem bs ts IsElem hbs hts
        exact ⟨_, prefixed_isElem _ _ hsc.2, stripCommon_ne_nil bs ts heq,
          rel_elems_chars _ bs ts (by rw [ht.2.2]; exact fun x hx => List.mem_cons_of_mem _ hx),
          hE.symm⟩
    · have hmix : IsAbs (Clean basepath) ≠ IsAbs (Clean targpath) := by
        rw [Clean_isAbs, Clean_isAbs, hb.1, ht.1]; simp
      have hdot : Clean basepath ≠ ['.'] := by rw [hb.2.2]; simp
      rw [Rel_mixed basepath targpath hmix hdot] at h
      cases h
  · obtain ⟨ts, hts, ht | ht⟩ := Clean_form targpath
    · by_cases hdot : Clean basepath = ['.']
      · unfold Rel at h
        have hne : ¬ (Clean targpath = Clean basepath) := by
          rw [hdot, ht.2.2]; simp
        have hab : IsAbs [] ≠ IsAbs (Clean targpath) := by
          rw [Clean_isAbs, ht.1]; simp [IsAbs]
        dsimp only at h
        rw [if_neg hne, if_pos hdot, if_pos hab] at h
        cases h
      · have hmix : IsAbs (Clean basepath) ≠ IsAbs (Clean targpath) := by
          rw [Clean_isAbs, Clean_isAbs, hb.1, ht.1]; simp
        rw [Rel_mixed basepath targpath hmix hdot] at h
        cases h
    · exact Rel_unrooted_form basepath targpath E bs ts hbs hts ht.2.1 hb.2.2 ht.2.2 h

/-- A path returned by `Rel` is never absolute. -/
theorem Rel_not_abs (basepath targpath E : List Char) (h : Rel basepath targpath = .ok E) :
    IsAbs E = false := by
  rcases Rel_ok_form basepath targpath E h with rfl | ⟨cs, hcs, _, _, rfl⟩
  · rfl
  · exact joinElems_not_abs cs hcs

/-! ### The manifest entries -/

theorem dirIndex_pos (path : List Char) (h : path.getD 0 '.' = '/') :
    ∀ n, 0 < n → 0 < dirIndex path n := by
  intro n
  induction n with
  | zero => intro h0; exact absurd h0 (Nat.lt_irrefl 0)
  | succ n ih =>
    intro _
    unfold dirIndex
    split
    · exact Nat.succ_pos n
    · cases n with
      | zero =>
        rename_i hsep
        rw [h] at hsep
        simp [IsPathSeparator] at hsep
      | succ m => exact ih (Nat.succ_pos m)

/-- The directory of an absolute path is a rooted, cleaned path. -/
theorem Dir_abs (path : List Char) (h : IsAbs path = true) :
    ∃ bs, (∀ c ∈ bs, IsNormal c) ∧ Dir path = '/' :: joinElems bs := by
  obtain ⟨t, rfl⟩ := (isAbs_iff path).mp h
  have hpos := dirIndex_pos ('/' :: t) rfl ('/' :: t).length (by simp)
  obtain ⟨j, hj⟩ : ∃ j, dirIndex ('/' :: t) ('/' :: t).length = j + 1 :=
    ⟨dirIndex ('/' :: t) ('/' :: t).length - 1, by omega⟩
  unfold Dir
  rw [hj, List.take_succ_cons, Clean_rooted]
  exact ⟨_, (cleanStep_foldl_inv true _ (comps_isElem _) (0, []) (by simp) (fun _ => rfl)).1, rfl⟩

/-- `filepath.Abs` yields an absolute path whenever `os.Getwd` does. -/
theorem Abs_isAbs (getwd : Except Err (List Char)) (path m : List Char)
    (hwd : ∀ wd, getwd = .ok wd → IsAbs wd = true) (h : Abs getwd path = .ok m) :
    IsAbs m = true := by
  unfold Abs at h
  by_cases hp : IsAbs path = true
  · rw [if_pos hp] at h
    rw [← Except.ok.inj h, Clean_isAbs]
    exact hp
  · rw [if_neg hp] at h
    cases hg : getwd with
    | error e => rw [hg] at h; cases h
    | ok wd =>
      rw [hg] at h
      have hw := hwd wd hg
      obtain ⟨w, rfl⟩ := (isAbs_iff wd).mp hw
      rw [← Except.ok.inj h, Join_pair _ _ (by simp), Clean_isAbs]
      rfl

theorem Clean_rooted_idem (bs : List (List Char)) (hbs : ∀ c ∈ bs, IsNormal c) :
    Clean ('/' :: joinElems bs) = '/' :: joinElems bs := by
  rw [Clean_rooted, comps_joinElems bs (fun c hc => (hbs c hc).1),
    cleanStep_foldl_push true bs hbs 0 []]
  simp

/-- Going up over the elements that only the base has and down over those that
only the target has leads from the base to the target. -/
theorem Clean_join_rel (common bs2 ts2 : List (List Char))
    (hc : ∀ c ∈ common, IsNormal c) (hb : ∀ c ∈ bs2, IsNormal c) (ht : ∀ c ∈ ts2, IsNormal c) :
    Clean (('/' :: joinElems (common ++ bs2)) ++
        '/' :: joinElems (List.replicate bs2.length ['.', '.'] ++ ts2)) =
      '/' :: joinElems (common ++ ts2) := by
  have hcb : ∀ c ∈ common ++ bs2, IsNormal c := by
    intro c h
    rcases List.mem_append.mp h with h | h
    · exact hc c h
    · exact hb c h
  have hrt : ∀ c ∈ List.replicate bs2.length ['.', '.'] ++ ts2, IsElem c :=
    prefixed_isElem _ _ (fun c h => (ht c h).1)
  rw [List.cons_append, Clean_rooted, comps_append_sep,
    comps_joinElems _ (fun c h => (hcb c h).1), comps_joinElems _ hrt,
    List.foldl_append, List.foldl_append, cleanStep_foldl_push true _ hcb 0 [],
    List.nil_append, cleanStep_foldl_pop true 0 common bs2,
    cleanStep_foldl_push true ts2 ht 0 common]

theorem Clean_join_dot (bs : List (List Char)) (hbs : ∀ c ∈ bs, IsNormal c) :
    Clean (('/' :: joinElems bs) ++ '/' :: ['.']) = '/' :: joinElems bs := by
  have hdot : comps ['.'] = [['.']] := by
    simpa [comps_nil] using comps_elem_append ['.'] [] isElem_dot (Or.inl rfl)
  rw [List.cons_append, Clean_rooted, comps_append_sep,
    comps_joinElems _ (fun c h => (hbs c h).1), hdot, List.foldl_append,
    cleanStep_foldl_push true _ hbs 0 []]
  simp [cleanStep]

theorem manifestEntry_ok_iff (bOut manifest o E : List Char) :
    manifestEntry bOut manifest o = .ok E ↔ Rel (Dir manifest) (outputPath bOut o) = .ok E := by
  unfold manifestEntry
  cases Rel (Dir manifest) (outputPath bOut o) <;> simp

/-- C5: the manifest round trip.  For an absolute manifest path and a build
output whose entry `E` could be computed, joining `E` back onto the directory
of the manifest gives the cleaned path of the output (the output itself when it
is absolute, otherwise the output joined onto the output directory). -/
theorem manifestEntry_roundtrip (bOut manifest o E : List Char)
    (habs : IsAbs manifest = true) (h : manifestEntry bOut manifest o = .ok E) :
    Join [Dir manifest, E] = Clean (outputPath bOut o) := by
  rw [manifestEntry_ok_iff] at h
  obtain ⟨bs, hbs, hD⟩ := Dir_abs manifest habs
  have hDne : Dir manifest ≠ [] := by rw [hD]; simp
  have hbase : Clean (Dir manifest) = '/' :: joinElems bs := by
    rw [hD]; exact Clean_rooted_idem bs hbs
  rw [Join_pair _ _ hDne]
  obtain ⟨ts, hts, ht | ht⟩ := Clean_form (outputPath bOut o)
  · rw [Rel_rooted _ _ bs ts hbs ht.2.1 hbase ht.2.2] at h
    have hE := (Except.ok.inj h).symm
    rw [ht.2.2, hD]
    by_cases heq : ts = bs
    · rw [if_pos heq] at hE
      rw [hE, heq]
      exact Clean_join_dot bs hbs
    · rw [if_neg heq] at hE
      obtain ⟨common, h1, h2⟩ := stripCommon_spec bs ts
      have hsc := stripCommon_isElem bs ts IsNormal hbs ht.2.1
      have hcommon : ∀ c ∈ common, IsNormal c := fun c hc =>
        hbs c (by rw [h1]; exact List.mem_append_left _ hc)
      rw [hE]
      generalize (stripCommon bs ts).1 = bs2 at h1 hsc
      generalize (stripCommon bs ts).2 = ts2 at h2 hsc
      subst h1 h2
      exact Clean_join_rel common bs2 ts2 hcommon hsc.1 hsc.2
  · have hmix : IsAbs (Clean (Dir manifest)) ≠ IsAbs (Clean (outputPath bOut o)) := by
      rw [hbase, Clean_isAbs, ht.1]; simp [IsAbs]
    have hdot : Clean (Dir manifest) ≠ ['.'] := by rw [hbase]; simp
    rw [Rel_mixed _ _ hmix hdot] at h
    cases h

/-- The output `pkgs/a.tgz` of the output directory `/src/dist`, for the manifest
`/src/manifest.txt`: the entry `dist/pkgs/a.tgz` leads back to the output. -/
theorem manifestEntry_roundtrip_witness :
    IsAbs "/src/manifest.txt".toList = true ∧
      manifestEntry "/src/dist".toList "/src/manifest.txt".toList "pkgs/a.tgz".toList =
        .ok "dist/pkgs/a.tgz".toList ∧
      Join [Dir "/src/manifest.txt".toList, "dist/pkgs/a.tgz".toList] =
        Clean (outputPath "/src/dist".toList "pkgs/a.tgz".toList) :=
  ⟨by decide, by decide,
    manifestEntry_roundtrip "/src/dist".toList "/src/manifest.txt".toList "pkgs/a.tgz".toList
      "dist/pkgs/a.tgz".toList (by decide) (by decide)⟩

theorem entries_not_abs (bOut manifest : List Char) (out rels : List (List Char))
    (hall : List.Forall₂ (fun o r => manifestEntry bOut manifest o = .ok r) out rels) :
    ∀ r ∈ rels, IsAbs r = false := by
  induction hall with
  | nil => simp
  | cons h1 _ ih =>
    intro r hr
    rcases List.mem_cons.mp hr with rfl | hr
    · exact Rel_not_abs _ _ _ ((manifestEntry_ok_iff _ _ _ _).mp h1)
    · exact ih r hr

/-- C7: every entry `runBuild` writes to the manifest is a relative path.
Whenever `runBuild` writes the manifest, the bytes written are the entries of
the build outputs joined by newlines, and none of these entries is absolute,
whatever the build outputs, the output directory and the manifest path are. -/
theorem runBuild_manifest_entries_relative (env : Env) (buildArgs : BuildArgs)
    (filters : List (List Char)) (targets : List Target) (name data : List Char) (perm : Nat)
    (h : Event.writeFile name data perm ∈ (runBuild env buildArgs filters targets).2) :
    ∃ (tgts : List Target) (b0 b : Build) (out rels : List (List Char)),
      env.BuildTargets { b0 with Verbose := buildArgs.verbose } tgts = (b, .ok out) ∧
      List.Forall₂ (fun o r => manifestEntry b.Out name o = .ok r) out rels ∧
      data = stringsJoin rels ['\n'] ∧
      ∀ r ∈ rels, IsAbs r = false := by
  have hmem : Event.writeFile name data perm ∈
      (runBuild env buildArgs filters targets).2.filter Event.isWriteFile :=
    List.mem_filter.mpr ⟨h, rfl⟩
  rcases runBuild_writes env buildArgs filters targets with ⟨hnil, _⟩ |
    ⟨tgts, wd, b0, b, out, manifest, rels, _, _, _, _, hb, _, _, hr, hw⟩
  · rw [hnil] at hmem; cases hmem
  · rw [hw] at hmem
    simp only [List.mem_singleton, Event.writeFile.injEq] at hmem
    obtain ⟨rfl, rfl, rfl⟩ := hmem
    have hall := (relativize_ok_iff _ _ _ _).mp hr
    exact ⟨tgts, b0, b, out, rels, hb, hall, rfl, entries_not_abs _ _ _ _ hall⟩

/-- The manifest scenario: the single entry written is `pkgs/a.tgz`. -/
theorem runBuild_manifest_entries_relative_witness :
    Event.writeFile "/out/manifest.txt".toList "pkgs/a.tgz".toList 0o644 ∈
        (runBuild scenarioEnv scenarioArgs allFilter registryABC).2 ∧
      ∃ (tgts : List Target) (b0 b : Build) (out rels : List (List Char)),
        scenarioEnv.BuildTargets { b0 with Verbose := scenarioArgs.verbose } tgts = (b, .ok out) ∧
        List.Forall₂ (fun o r => manifestEntry b.Out "/out/manifest.txt".toList o = .ok r)
          out rels ∧
        "pkgs/a.tgz".toList = stringsJoin rels ['\n'] ∧
        ∀ r ∈ rels, IsAbs r = false :=
  ⟨by decide,
    runBuild_manifest_entries_relative scenarioEnv scenarioArgs allFilter registryABC
      "/out/manifest.txt".toList "pkgs/a.tgz".toList 0o644 (by decide)⟩

/-! ### The content of the manifest -/

/-- A manifest entry is non-empty and made of `.`, `/` and characters of the
output directory and of the output path. -/
theorem manifestEntry_chars (bOut manifest o E : List Char)
    (h : manifestEntry bOut manifest o = .ok E) :
    E ≠ [] ∧ ∀ x ∈ E, x = '.' ∨ x = '/' ∨ x ∈ bOut ∨ x ∈ o := by
  rw [manifestEntry_ok_iff] at h
  have hout : ∀ x ∈ Clean (outputPath bOut o), x = '.' ∨ x = '/' ∨ x ∈ bOut ∨ x ∈ o := by
    intro x hx
    rcases Clean_chars _ x hx with h | h | h
    · exact Or.inl h
    · exact Or.inr (Or.inl h)
    · unfold outputPath at h
      split at h
      · exact Join_pair_chars bOut o x h
      · exact Or.inr (Or.inr (Or.inr h))
  rcases Rel_ok_form _ _ E h with rfl | ⟨cs, hcs, hne, hch, rfl⟩
  · refine ⟨by simp, ?_⟩
    intro x hx
    left
    simpa using hx
  · refine ⟨fun hnil => hne ((joinElems_eq_nil_iff cs hcs).mp hnil), ?_⟩
    intro x hx
    rcases mem_joinElems cs x hx with h | ⟨c, hc, hxc⟩
    · exact Or.inr (Or.inl h)
    · rcases hch c hc x hxc with h | h
      · exact Or.inl h
      · exact hout x h

theorem intercalate_cons_cons (sep a b : List Char) (l : List (List Char)) :
    sep.intercalate (a :: b :: l) = a ++ sep ++ sep.intercalate (b :: l) := by
  simp [List.intercalate, List.intersperse]

/-- Joining non-empty entries without newline by newlines gives a text that
neither starts nor ends with a newline. -/
theorem intercalate_no_outer_newline (rels : List (List Char))
    (h : ∀ r ∈ rels, r ≠ [] ∧ '\n' ∉ r) :
    (['\n'].intercalate rels).head? ≠ some '\n' ∧
      (['\n'].intercalate rels).getLast? ≠ some '\n' := by
  induction rels with
  | nil => simp [List.intercalate]
  | cons r rs ih =>
    have hr := h r (List.mem_cons_self _ _)
    cases rs with
    | nil =>
      have hone : ['\n'].intercalate [r] = r := by simp [List.intercalate]
      rw [hone]
      constructor
      · intro hh
        exact hr.2 (List.mem_of_mem_head? hh)
      · intro hh
        exact hr.2 (List.mem_of_getLast?_eq_some hh)
    | cons r2 rs2 =>
      have ih' := ih (fun x hx => h x (List.mem_cons_of_mem _ hx))
      have hr2 := h r2 (List.mem_cons_of_mem _ (List.mem_cons_self _ _))
      rw [intercalate_cons_cons]
      constructor
      · intro hh
        cases r with
        | nil => exact hr.1 rfl
        | cons x xs =>
          simp only [List.cons_append, List.head?_cons, Option.some.injEq] at hh
          exact hr.2 (hh ▸ List.mem_cons_self _ _)
      · have hne : ['\n'].intercalate (r2 :: rs2) ≠ [] := by
          cases rs2 with
          | nil =>
            have hone : ['\n'].intercalate [r2] = r2 := by simp [List.intercalate]
            rw [hone]; exact hr2.1
          | cons r3 rs3 =>
            rw [intercalate_cons_cons]
            simp [hr2.1]
        rw [List.getLast?_append_of_ne_nil _ hne]
        exact ih'.2

theorem entries_no_newline (bOut manifest : List Char) (out rels : List (List Char))
    (hall : List.Forall₂ (fun o r => manifestEntry bOut manifest o = .ok r) out rels)
    (hbout : '\n' ∉ bOut) (hout : ∀ o ∈ out, '\n' ∉ o) :
    ∀ r ∈ rels, r ≠ [] ∧ '\n' ∉ r := by
  induction hall with
  | nil => simp
  | @cons o r os rs h1 _ ih =>
    intro x hx
    rcases List.mem_cons.mp hx with rfl | hx
    · have hp := manifestEntry_chars _ _ _ _ h1
      refine ⟨hp.1, fun hmem => ?_⟩
      rcases hp.2 _ hmem with h | h | h | h
      · exact absurd h (by decide)
      · exact absurd h (by decide)
      · exact hbout h
      · exact hout o (List.mem_cons_self _ _) h
    · exact ih (fun o ho => hout o (List.mem_cons_of_mem _ ho)) x hx

/-- Joining non-empty entries by newlines gives a text that starts with the
first character of the first entry and ends with the last character of the
last entry. -/
theorem intercalate_head_last (rels : List (List Char)) (h : ∀ r ∈ rels, r ≠ []) :
    (['\n'].intercalate rels).head? = rels.head?.bind List.head? ∧
      (['\n'].intercalate rels).getLast? = rels.getLast?.bind List.getLast? := by
  induction rels with
  | nil => simp [List.intercalate]
  | cons r rs ih =>
    have hr := h r (List.mem_cons_self _ _)
    cases rs with
    | nil =>
      have hone : ['\n'].intercalate [r] = r := by simp [List.intercalate]
      rw [hone]
      simp
    | cons r2 rs2 =>
      have ih' := ih (fun x hx => h x (List.mem_cons_of_mem _ hx))
      have hr2 := h r2 (List.mem_cons_of_mem _ (List.mem_cons_self _ _))
      rw [intercalate_cons_cons]
      constructor
      · cases r with
        | nil => exact absurd rfl hr
        | cons x xs => simp
      · have hne : ['\n'].intercalate (r2 :: rs2) ≠ [] := by
          cases rs2 with
          | nil =>
            have hone : ['\n'].intercalate [r2] = r2 := by simp [List.intercalate]
            rw [hone]; exact hr2
          | cons r3 rs3 =>
            rw [intercalate_cons_cons]
            simp [hr2]
        rw [List.getLast?_append_of_ne_nil _ hne, ih'.2, List.getLast?_cons_cons]

theorem entries_ne_nil (bOut manifest : List Char) (out rels : List (List Char))
    (hall : List.Forall₂ (fun o r => manifestEntry bOut manifest o = .ok r) out rels) :
    ∀ r ∈ rels, r ≠ [] := by
  induction hall with
  | nil => simp
  | cons h1 _ ih =>
    intro x hx
    rcases List.mem_cons.mp hx with rfl | hx
    · exact (manifestEntry_chars _ _ _ _ h1).1
    · exact ih x hx

/-- C6 (the claim fails): the build output `/out/a` followed by a newline, with
the manifest `/out/manifest.txt`, gives a successful run whose single write has
the content `a` followed by a newline, which ends with a newline. -/
theorem runBuild_manifest_trailing_newline :
    scenarioArgs.manifest ≠ [] ∧
      (runBuild newlineEnv scenarioArgs allFilter registryABC).1 = none ∧
      (runBuild newlineEnv scenarioArgs allFilter registryABC).2.filter Event.isWriteFile =
        [.writeFile "/out/manifest.txt".toList ['a', '\n'] 0o644] ∧
      (['a', '\n'] : List Char).getLast? = some '\n' := by
  decide

/-- C6 (amended): in a successful run of `runBuild` with a non-empty manifest
path, the manifest is written once and its bytes are exactly the entries of the
build outputs, one per output and in the order of the build result, joined by a
single newline and nothing else.  The join puts nothing before the first or
after the last entry: every entry is non-empty, and the content starts with the
first byte of the first entry and ends with the last byte of the last entry.
So the content has no leading or trailing newline when no newline occurs in the
output directory and the output paths.  For manifest `/out/manifest.txt` and
the single output `/out/pkgs/a.tgz` the content is `pkgs/a.tgz`. -/
theorem runBuild_manifest_content (env : Env) (buildArgs : BuildArgs)
    (filters : List (List Char)) (targets : List Target)
    (hm : buildArgs.manifest ≠ [])
    (hok : (runBuild env buildArgs filters targets).1 = none) :
    (∃ (tgts : List Target) (wd : List Char) (b0 b : Build) (out : List (List Char))
        (manifest : List Char) (rels : List (List Char)),
      env.FilterTargets targets filters = .ok tgts ∧ env.Getwd = .ok wd ∧
      env.NewBuild wd (Join [wd, ['d', 'i', 's', 't']]) = .ok b0 ∧
      env.BuildTargets { b0 with Verbose := buildArgs.verbose } tgts = (b, .ok out) ∧
      Abs env.AbsGetwd buildArgs.manifest = .ok manifest ∧
      List.Forall₂ (fun o r => manifestEntry b.Out manifest o = .ok r) out rels ∧
      (runBuild env buildArgs filters targets).2.filter Event.isWriteFile =
        [.writeFile manifest (['\n'].intercalate rels) 0o644] ∧
      (∀ r ∈ rels, r ≠ []) ∧
      (['\n'].intercalate rels).head? = rels.head?.bind List.head? ∧
      (['\n'].intercalate rels).getLast? = rels.getLast?.bind List.getLast? ∧
      (('\n' ∉ b.Out ∧ ∀ o ∈ out, '\n' ∉ o) →
        (['\n'].intercalate rels).head? ≠ some '\n' ∧
          (['\n'].intercalate rels).getLast? ≠ some '\n')) ∧
    (runBuild scenarioEnv scenarioArgs allFilter registryABC).2.filter Event.isWriteFile =
      [.writeFile "/out/manifest.txt".toList "pkgs/a.tgz".toList 0o644] := by
  refine ⟨?_, by decide⟩
  rcases runBuild_writes env buildArgs filters targets with ⟨_, h | h⟩ |
    ⟨tgts, wd, b0, b, out, manifest, rels, hf, _, hwd, hnb, hb, _, ha, hr, h⟩
  · exact absurd h hm
  · exact absurd hok h
  · have hall := (relativize_ok_iff _ _ _ _).mp hr
    have hne := entries_ne_nil _ _ _ _ hall
    have hhl := intercalate_head_last rels hne
    refine ⟨tgts, wd, b0, b, out, manifest, rels, hf, hwd, hnb, hb, ha, hall, h, hne,
      hhl.1, hhl.2, ?_⟩
    rintro ⟨hbout, hout⟩
    apply intercalate_no_outer_newline
    exact entries_no_newline _ _ _ _ hall hbout hout

/-- The manifest scenario: a successful run with the filters `["all"]` whose
manifest holds `pkgs/a.tgz`. -/
theorem runBuild_manifest_content_witness :
    scenarioArgs.manifest ≠ [] ∧
      (runBuild scenarioEnv scenarioArgs allFilter registryABC).1 = none ∧
      (runBuild scenarioEnv scenarioArgs allFilter registryABC).2.filter Event.isWriteFile =
        [.writeFile "/out/manifest.txt".toList "pkgs/a.tgz".toList 0o644] :=
  ⟨by decide, by decide,
    (runBuild_manifest_content scenarioEnv scenarioArgs allFilter registryABC (by decide)
      (by decide)).2⟩

end Dist
